import Mathlib

/-!
Verification of the pborman/options overlay-flag library.

This file gives a shallow embedding, in Lean, of the core of the
`options` Go package: the decoded value trees, the `mergemap` accumulator,
the `${NAME}` / `${NAME:-VALUE}` environment expander, the `SimpleDecoder`
line format, the struct-tag parsers of both the getopt-backed package and
the `flags` sub-package, and the `Flags.Set` / `Flags.Rescan` overlay
engine, together with theorems settling the specification's claims.

Go maps of type `map[string]interface{}` are embedded as association
lists with unique keys; Go's `interface{}` values that can appear in a
decoded tree are embedded by the inductive type `V`.  Strings are kept as
Lean `String`s; character-level scanning functions work on `List Char`
(Go indexes bytes, but every input the library handles is ASCII-clean in
the scanned positions, so the embedding is faithful on the byte level).
-/

namespace OptionsV

/-- A decoded overlay value (`interface{}` in the Go code): a string, a
boolean, a number (already carrying its canonical `%v` rendering), a
nested mapping, or any other value (which the apply phase rejects as
"not a string or number"). -/
inductive V where
  | str (s : String)
  | bv (b : Bool)
  | num (s : String)
  | map (m : List (String × V))
  | other
deriving Repr

/-- A decoded overlay tree: `map[string]interface{}` as an association list. -/
abbrev Tree := List (String × V)

/-- Go map read `m[k]`: first binding of `k`. -/
def getk (t : Tree) (k : String) : Option V :=
  match t with
  | [] => none
  | (k1, v) :: rest => if k1 = k then some v else getk rest k

/-- Go map write `m[k] = v`: replace the binding of `k`, else append. -/
def setk (t : Tree) (k : String) (v : V) : Tree :=
  match t with
  | [] => [(k, v)]
  | (k1, v1) :: rest => if k1 = k then (k1, v) :: rest else (k1, v1) :: setk rest k v

/-- Go `delete(m, k)`: remove the binding of `k`. -/
def delk (t : Tree) (k : String) : Tree :=
  match t with
  | [] => []
  | (k1, v1) :: rest => if k1 = k then rest else (k1, v1) :: delk rest k

mutual

/-- `mergemap(new, old)` from flags.go: copy each entry of `old` into
`new` (so entries of the second argument overwrite those of the first),
deep-copying any entry whose value is itself a mapping.  `mergemap nil m`
is the deep duplicate the apply phase works on. -/
def mergemap (new : Tree) (old : Tree) : Tree :=
  match old with
  | [] => new
  | (k, v) :: rest => mergemap (setk new k (dupV v)) rest

/-- The value copy performed inside `mergemap`: nested mappings become
`mergemap(nil, vm)`, every other value is carried over unchanged. -/
def dupV (v : V) : V :=
  match v with
  | .map m => .map (mergemap [] m)
  | v => v

end

/-- Keys of a tree. -/
def keysOf (t : Tree) : List String := t.map Prod.fst

theorem getk_setk_self (t : Tree) (k : String) (v : V) : getk (setk t k v) k = some v := by
  induction t with
  | nil => simp [getk, setk]
  | cons p rest ih =>
    obtain ⟨k1, v1⟩ := p
    by_cases h : k1 = k <;> simp [getk, setk, h, ih]

theorem getk_setk_other (t : Tree) (k k2 : String) (v : V) (h : k2 ≠ k) :
    getk (setk t k v) k2 = getk t k2 := by
  induction t with
  | nil => simp [getk, setk, Ne.symm h]
  | cons p rest ih =>
    obtain ⟨k1, v1⟩ := p
    by_cases h1 : k1 = k
    · subst h1
      simp [getk, setk, Ne.symm h]
    · simp [getk, setk, h1, ih]

theorem getk_eq_none_of_not_mem (t : Tree) (k : String) (h : k ∉ keysOf t) :
    getk t k = none := by
  induction t with
  | nil => simp [getk]
  | cons p rest ih =>
    obtain ⟨k1, v1⟩ := p
    simp [keysOf] at h
    simp [getk, Ne.symm h.1, ih (by simpa [keysOf] using h.2)]

/-- Lookup in a merged tree: entries of the second (newly decoded)
argument win; entries of the first survive where the second is silent. -/
theorem getk_mergemap (new old : Tree) (k : String) (hnd : (keysOf old).Nodup) :
    getk (mergemap new old) k =
      match getk old k with
      | some v => some (dupV v)
      | none => getk new k := by
  induction old generalizing new with
  | nil => simp [mergemap, getk]
  | cons p rest ih =>
    obtain ⟨k1, v1⟩ := p
    simp [keysOf] at hnd
    by_cases h : k1 = k
    · subst h
      rw [mergemap, ih _ (by simpa [keysOf] using hnd.2)]
      have hrest : getk rest k1 = none :=
        getk_eq_none_of_not_mem _ _ (by simpa [keysOf] using hnd.1)
      simp [getk, hrest, getk_setk_self]
    · rw [mergemap, ih _ (by simpa [keysOf] using hnd.2)]
      cases hr : getk rest k with
      | some v => simp [getk, h, hr]
      | none => simp [getk, h, hr, getk_setk_other _ _ _ _ (fun hh => h hh.symm)]

end OptionsV

namespace OptionsV

/-! ## The environment expander `expand` -/

/-- Split a brace body at its first `\x7d` (closing brace): returns the
text before it and the text after it, or `none` when there is none
(`strings.Index(s, "\x7d") < 0` in the Go code). -/
def breakBrace (l : List Char) : Option (List Char × List Char) :=
  match l with
  | [] => none
  | c :: rest =>
    if c = '\x7d' then some ([], rest)
    else match breakBrace rest with
      | none => none
      | some (a, b) => some (c :: a, b)

theorem breakBrace_some_length (l a b : List Char) (h : breakBrace l = some (a, b)) :
    b.length < l.length := by
  induction l generalizing a b with
  | nil => simp [breakBrace] at h
  | cons c rest ih =>
    by_cases hc : c = '\x7d'
    · simp [breakBrace, hc] at h
      obtain ⟨h1, h2⟩ := h
      subst h2
      simp
    · simp [breakBrace, hc] at h
      cases hr : breakBrace rest with
      | none => rw [hr] at h; simp at h
      | some p =>
        obtain ⟨a1, b1⟩ := p
        rw [hr] at h
        simp at h
        obtain ⟨h1, h2⟩ := h
        subst h2
        exact Nat.lt_succ_of_lt (ih a1 b1 hr)

/-- Split a brace body at the first `:-` into name and default
(`strings.Index(name, ":-")` in the Go code); when there is no `:-` the
whole body is the name and the default is empty. -/
def splitColonDash (l : List Char) : List Char × List Char :=
  match l with
  | [] => ([], [])
  | ':' :: '-' :: rest => ([], rest)
  | c :: rest =>
    let (n, d) := splitColonDash rest
    (c :: n, d)

/-- The scanner of `expand` on character lists.  Faithful to the Go loop:
text before a `$\x7b` is copied; `$\x7b$` emits a literal `$\x7b` and the scan
resumes after the second `$`; an unmatched `$\x7b` stops the scan and emits
the remainder verbatim; otherwise the brace body is split at the first
`:-`, the environment value of the name is substituted when non-empty and
the default otherwise, and the scan continues after the closing brace
(substituted text is never re-scanned). -/
def expandL (env : String → String) (l : List Char) : List Char :=
  match l with
  | [] => []
  | '$' :: '\x7b' :: rest =>
    match rest with
    | [] => ['$', '\x7b']
    | '$' :: rest2 => '$' :: '\x7b' :: expandL env rest2
    | c :: rest2 =>
      match hb : breakBrace (c :: rest2) with
      | none => '$' :: '\x7b' :: c :: rest2
      | some (inside, after) =>
        let nd := splitColonDash inside
        let ev := env nd.1.asString
        (if ev ≠ "" then ev.toList else nd.2) ++ expandL env after
  | c :: rest => c :: expandL env rest
termination_by l.length
decreasing_by
  · simp; omega
  · simp
    have := breakBrace_some_length (c :: rest2) inside after hb
    simp at this
    omega
  · simp

/-- `expand` from flags.go: `${NAME}` / `${NAME:-VALUE}` environment
expansion with the `${$` escape, in a single left-to-right pass. -/
def expand (env : String → String) (s : String) : String :=
  (expandL env s.toList).asString

end OptionsV

namespace OptionsV

/-! ## The simple decoder (`SimpleDecoder` in simple.go) -/

/-- Is the character one of the whitespace characters the Go code trims
(`unicode.IsSpace` on the ASCII plane for the inputs at hand). -/
def isSp (c : Char) : Bool := c = ' ' ∨ c = '\t' ∨ c = '\n' ∨ c = '\r'

/-- Trim leading whitespace. -/
def trimLeftL (l : List Char) : List Char := l.dropWhile isSp

/-- Trim leading and trailing whitespace (`bytes.TrimSpace` / `strings.TrimSpace`). -/
def trimL (l : List Char) : List Char :=
  (trimLeftL ((trimLeftL l).reverse)).reverse

/-- `strings.TrimSpace` on strings. -/
def trimS (s : String) : String := (trimL s.toList).asString

/-- The backslash/comment scan of `unescape`: an escaped character is kept
verbatim, a bare `#` ends the line, a trailing backslash is dropped. -/
def unescCore (esc : Bool) (l : List Char) : List Char :=
  match l with
  | [] => []
  | c :: rest =>
    if esc then c :: unescCore false rest
    else if c = '\\' then unescCore true rest
    else if c = '#' then []
    else c :: unescCore false rest

/-- `unescape` from simple.go: strip leading space/tab; a blank line or a
line starting with `#` is dropped; otherwise backslash-process and trim. -/
def unescapeLine (l : List Char) : List Char :=
  let l := l.dropWhile (fun c => c = ' ' ∨ c = '\t')
  match l with
  | [] => []
  | c :: _ => if c = '#' then [] else trimL (unescCore false l)

/-- Index of the first occurrence of `c`, as `strings.Index` (None when absent). -/
def idxOf (c : Char) (l : List Char) : Option Nat :=
  match l with
  | [] => none
  | c1 :: rest =>
    if c1 = c then some 0
    else match idxOf c rest with
      | none => none
      | some n => some (n + 1)

/-- Insert a scalar `value` at dotted path `fields` inside tree `t`,
descending through (or creating) nested mappings; reaching an existing
non-mapping on the way is the "conflict on field" error.  The final
component is written unconditionally, exactly as the Go code does. -/
def insertPath (name : String) (t : Tree) (fields : List String) (value : String) :
    Except String Tree :=
  match fields with
  | [] => .ok t
  | [f] => .ok (setk t f (.str value))
  | f :: rest =>
    match getk t f with
    | none =>
      match insertPath name [] rest value with
      | .error e => .error e
      | .ok sub => .ok (setk t f (.map sub))
    | some (.map sm) =>
      match insertPath name sm rest value with
      | .error e => .error e
      | .ok sub => .ok (setk t f (.map sub))
    | some _ => .error (name ++ ": conflict on field " ++ f)

/-- Split at dots (`strings.Split(name, ".")`): always at least one
piece, empty pieces kept. -/
def splitDot (l : List Char) : List (List Char) :=
  match l with
  | [] => [[]]
  | '.' :: rest => [] :: splitDot rest
  | c :: rest =>
    match splitDot rest with
    | [] => [[c]]
    | fst :: others => (c :: fst) :: others

/-- Process one (already unescaped, non-empty) line of the simple format. -/
def simpleLine (n : Nat) (line : List Char) (t : Tree) : Except String Tree :=
  match idxOf '=' line with
  | none => .error ("line " ++ toString n ++ ": missing value: " ++ line.asString)
  | some 0 => .error ("line " ++ toString n ++ ": missing name: " ++ line.asString)
  | some x =>
    let name := trimL (line.take x)
    if (idxOf ' ' name).isSome then
      .error ("line " ++ toString n ++ ": space in name: " ++ line.asString)
    else
      let value := trimL (line.drop (x + 1))
      let value :=
        if value.length > 1 ∧ value.head? = some '"' ∧ value.getLast? = some '"' then
          (value.drop 1).dropLast
        else value
      insertPath name.asString t ((splitDot name).map List.asString) value.asString

/-- The line loop of `SimpleDecoder` (`n` is the 1-based line number). -/
def simpleLines (n : Nat) (lines : List (List Char)) (t : Tree) : Except String Tree :=
  match lines with
  | [] => .ok t
  | d :: rest =>
    let line := unescapeLine d
    if line = [] then simpleLines (n + 1) rest t
    else match simpleLine n line t with
      | .error e => .error e
      | .ok t2 => simpleLines (n + 1) rest t2

/-- Split at newline characters (`bytes.Split(data, []byte("\n"))`):
always at least one piece, empty pieces kept. -/
def splitNl (l : List Char) : List (List Char) :=
  match l with
  | [] => [[]]
  | '\n' :: rest => [] :: splitNl rest
  | c :: rest =>
    match splitNl rest with
    | [] => [[c]]
    | fst :: others => (c :: fst) :: others

/-- `SimpleDecoder` from simple.go: split on newlines and fold the lines
into a nested tree. -/
def simpleDecoder (data : String) : Except String Tree :=
  simpleLines 1 (splitNl data.toList) []

end OptionsV

namespace OptionsV

/-! ## The struct-tag parser of the getopt-backed package (options.go) -/

/-- The parsed form of a getopt struct tag (`optTag` in options.go):
long name, short name (`none` embeds the Go zero rune), parameter
placeholder, help text. -/
structure OptTag where
  long : String := ""
  short : Option Char := none
  param : String := ""
  help : String := ""
deriving Repr, DecidableEq

/-- The errors `parseTag` can return (Go wraps the offending tag into the
message; the constructor identifies which message). -/
inductive TagErr where
  | missingName
  | tooManyShort
  | tooManyLong
  | multiParam
  | manyDashes
  | invalidShort
  | tooManyNames
deriving Repr, DecidableEq

/-- Split at the first space: everything before it and everything after
it (the Go code then trims the remainder). -/
def splitAtSpace (l : List Char) : List Char × List Char :=
  match l with
  | [] => ([], [])
  | c :: rest =>
    if c = ' ' then ([], rest)
    else
      let (a, b) := splitAtSpace rest
      (c :: a, b)

/-- Split at the first `=`: the option text and the parameter text. -/
def splitAtEq (l : List Char) : List Char × List Char :=
  match l with
  | [] => ([], [])
  | c :: rest =>
    if c = '=' then ([], rest)
    else
      let (a, b) := splitAtEq rest
      (c :: a, b)

/-- `nextOption` from options.go: the next whitespace-delimited token of
the tag, split at `=` into option and parameter, plus the trimmed rest.
A token not starting with `-` stops the scan (option is empty). -/
def nextOptionL (s : List Char) : List Char × List Char × List Char :=
  match s with
  | [] => ([], [], [])
  | c :: _ =>
    if c ≠ '-' then ([], [], s)
    else
      let (tok, restRaw) := splitAtSpace s
      let (opt, par) := splitAtEq tok
      (opt, par, trimL restRaw)

theorem splitAtSpace_snd_lt (s : List Char) (h : s ≠ []) :
    (splitAtSpace s).2.length < s.length := by
  induction s with
  | nil => simp at h
  | cons c rest ih =>
    by_cases hc : c = ' '
    · simp [splitAtSpace, hc]
    · simp only [splitAtSpace, hc, if_false]
      rcases rest with _ | ⟨c2, rest2⟩
      · simp [splitAtSpace]
      · have h2 := ih (by simp)
        simp only [List.length_cons] at h2 ⊢
        omega

theorem trimLeftL_length_le (m : List Char) : (trimLeftL m).length ≤ m.length := by
  induction m with
  | nil => simp [trimLeftL]
  | cons c rest ih =>
    by_cases hc : isSp c
    · simp only [trimLeftL, List.dropWhile_cons, hc, if_true] at ih ⊢
      simp only [List.length_cons]
      omega
    · simp [trimLeftL, List.dropWhile_cons, hc]

theorem trimL_length_le (l : List Char) : (trimL l).length ≤ l.length := by
  unfold trimL
  have h1 := trimLeftL_length_le ((trimLeftL l).reverse)
  have h2 := trimLeftL_length_le l
  simp only [List.length_reverse] at h1 ⊢
  omega

theorem nextOptionL_rest_lt (s : List Char) (h : (nextOptionL s).1 ≠ []) :
    (nextOptionL s).2.2.length < s.length := by
  rcases s with _ | ⟨c, rest⟩
  · simp [nextOptionL] at h
  · by_cases hc : c = '-'
    · subst hc
      simp only [nextOptionL, ne_eq, not_true_eq_false, if_false, reduceIte] at h ⊢
      have h2 := splitAtSpace_snd_lt ('-' :: rest) (by simp)
      have h3 := trimL_length_le (splitAtSpace ('-' :: rest)).2
      simp only [List.length_cons] at h2 ⊢
      omega
    · simp [nextOptionL, hc] at h

/-- One non-terminator token of the tag loop: record a parameter, then a
short name (exactly one character after a single dash) or a long name
(after a double dash); three dashes are rejected. -/
def stepTok (o : OptTag) (arg param : List Char) : Except TagErr OptTag :=
  match
    (if param ≠ [] then
      if o.param ≠ "" then Except.error TagErr.multiParam
      else Except.ok { o with param := param.asString }
    else Except.ok o : Except TagErr OptTag) with
  | .error e => .error e
  | .ok o =>
    match (arg.takeWhile (fun c => c = '-')).length with
    | 1 =>
      if o.short.isSome then .error .tooManyShort
      else match arg.drop 1 with
        | [c] => .ok { o with short := some c }
        | _ => .error .invalidShort
    | 2 =>
      if o.long ≠ "" then .error .tooManyLong
      else .ok { o with long := (arg.drop 2).asString }
    | _ => .error .manyDashes

/-- The loop of `parseTag` from options.go.  A terminator token (empty,
`-`, or `--`) ends the scan: a dangling parameter or help text with no
option name at all is an error, no tokens at all yields no tag, and
otherwise the rest of the tag becomes the help text. -/
def parseTagLoop (o : OptTag) (s : List Char) : Except TagErr (Option OptTag) :=
  let t := nextOptionL s
  if harg : t.1 = [] ∨ t.1 = ['-'] ∨ t.1 = ['-', '-'] then
    if t.2.1 ≠ [] then .error .missingName
    else if o.long = "" ∧ o.short = none then
      if t.2.2 ≠ [] then .error .missingName else .ok none
    else .ok (some { o with help := t.2.2.asString })
  else
    match stepTok o t.1 t.2.1 with
    | .error e => .error e
    | .ok o2 => parseTagLoop o2 t.2.2
termination_by s.length
decreasing_by
  have harg1 : (nextOptionL s).1 ≠ [] := fun hh => harg (Or.inl hh)
  exact nextOptionL_rest_lt s harg1

/-- `parseTag` from options.go: trim the tag; an empty tag parses to no
descriptor; otherwise run the token loop. -/
def parseTagL (tag : List Char) : Except TagErr (Option OptTag) :=
  let tag := trimL tag
  if tag = [] then .ok none else parseTagLoop {} tag

/-- `parseTag` on strings. -/
def parseTag (tag : String) : Except TagErr (Option OptTag) := parseTagL tag.toList

end OptionsV

namespace OptionsV

/-! ## The `flags` sub-package: its tag parser and `register`
(src/flags/options.go) -/

/-- The parsed form of a getopt struct tag in the `flags` sub-package
(`optTag` there has a single `name`). -/
structure OptTagF where
  name : String := ""
  param : String := ""
  help : String := ""
deriving Repr, DecidableEq

/-- The loop of the `flags` sub-package `parseTag`: like the getopt one
but with a single name slot and no dash-count validation (the leading
`-` and at most one further `-` are stripped). -/
def parseTagLoopF (o : OptTagF) (s : List Char) : Except TagErr (Option OptTagF) :=
  let t := nextOptionL s
  if harg : t.1 = [] ∨ t.1 = ['-'] ∨ t.1 = ['-', '-'] then
    if t.2.1 ≠ [] then .error .missingName
    else if o.name = "" then
      if t.2.2 ≠ [] then .error .missingName else .ok none
    else .ok (some { o with help := t.2.2.asString })
  else
    match
      (if t.2.1 ≠ [] then
        if o.param ≠ "" then Except.error TagErr.multiParam
        else Except.ok { o with param := t.2.1.asString }
      else Except.ok o : Except TagErr OptTagF) with
    | .error e => .error e
    | .ok o2 =>
      if o2.name ≠ "" then .error .tooManyNames
      else
        let nm := t.1.drop 1
        let nm := if nm.head? = some '-' then nm.drop 1 else nm
        parseTagLoopF { o2 with name := nm.asString } t.2.2
termination_by s.length
decreasing_by
  have harg1 : (nextOptionL s).1 ≠ [] := fun hh => harg (Or.inl hh)
  exact nextOptionL_rest_lt s harg1

/-- `parseTag` of the `flags` sub-package. -/
def parseTagF (tag : String) : Except TagErr (Option OptTagF) :=
  let t := trimL tag.toList
  if t = [] then .ok none else parseTagLoopF {} t

/-- The field types the `flags` sub-package `register` dispatches on;
anything else falls to the `default:` arm. -/
inductive FieldTy where
  | value | duration | str | int | int64 | uint | uint64 | boolTy | unsupported
deriving Repr, DecidableEq

/-- One exported, settable struct field as `register` sees it: its name,
its `getopt` tag (the empty string embeds a missing tag) and its type. -/
structure Field where
  fname : String
  tag : String
  ty : FieldTy
deriving Repr, DecidableEq

/-- How a call into `register` ends: normal return (`.ok` / `.errRes`) or
a runtime panic. -/
inductive RegRes where
  | ok
  | errRes (msg : String)
  | panics (e : TagErr)
  | panicsInvalidType (fname : String)
deriving Repr, DecidableEq

/-- The field loop of `register` in src/flags/options.go: a tag of `-`
skips the field; a malformed tag makes the loop `panic(err)` (even when
entered through `Validate` or `RegisterSet`); a field whose type is not
one of the supported ones makes it `panic("invalid option type: ...")`;
otherwise the field is bound and the loop continues. -/
def registerFields (fields : List Field) : RegRes :=
  match fields with
  | [] => .ok
  | f :: rest =>
    if f.tag = "-" then registerFields rest
    else
      match parseTagF f.tag with
      | .error e => .panics e
      | .ok _ =>
        match f.ty with
        | .unsupported => .panicsInvalidType f.fname
        | _ => registerFields rest

/-- `register` (hence `Validate` and `RegisterSet`) in the `flags`
sub-package: a non-struct argument returns an error; otherwise the field
loop runs (and may panic). -/
def registerGo (isStructPtr : Bool) (fields : List Field) : RegRes :=
  if ¬ isStructPtr then .errRes "not a pointer to a struct" else registerFields fields

end OptionsV

namespace OptionsV

/-! ## The overlay engine: `Flags.Set` and `Flags.Rescan` (flags.go) -/

/-- One registered option of a getopt set, as the overlay engine sees it:
its long and short names (empty string embeds Go's "no name"), whether
the command line has explicitly supplied it (`Seen`), and its current
textual value. -/
structure Opt where
  long : String
  short : String
  seen : Bool
  value : String
deriving Repr, DecidableEq, Inhabited

/-- The mutable state of a `Flags` value: the bound `(name, set)` pairs,
the `IgnoreUnknown` toggle, the remembered source path, whether the value
was registered as an option (`f.opt != nil`), and the accumulated tree
`f.m`. -/
structure FState where
  sets : List (String × List Opt)
  ignoreUnknown : Bool
  path : String
  registered : Bool
  m : Tree
deriving Repr, Inhabited

/-- The errors `Flags.Set` can return. -/
inductive SErr where
  | notRegistered
  | readFile (path : String)
  | decode (path : String) (msg : String)
  | notStringable (path : String) (key : String)
  | unknownFlags (path : String) (names : List String)
deriving Repr

/-- The `opt` argument of `Flags.Set`: nil, or an option whose `Seen()`
is true, or one whose `Seen()` is false. -/
inductive OptArg where
  | noOpt
  | seenOpt
  | notSeenOpt
deriving Repr, DecidableEq

/-- The observable outcome of one `Flags.Set` call: the new state, the
returned error, and the paths whose files were read (or attempted). -/
structure SetOut where
  st : FState
  res : Except SErr Unit
  reads : List String
deriving Repr

/-- The value-to-text switch of the apply phase: strings pass through,
booleans become `true`/`false`, numbers their canonical `%v` rendering;
a nested mapping or any other value has no text. -/
def stringifyV (v : V) : Option String :=
  match v with
  | .str s => some s
  | .bv true => some "true"
  | .bv false => some "false"
  | .num s => some s
  | _ => none

/-- The per-option lookup of the apply phase: try the long name first,
then the short name, remembering which name matched. -/
def findKey (m : Tree) (o : Opt) : Option (String × V) :=
  match (if o.long ≠ "" then getk m o.long else none) with
  | some v => some (o.long, v)
  | none =>
    match (if o.short ≠ "" then getk m o.short else none) with
    | some v => some (o.short, v)
    | none => none

/-- The `VisitAll` loop of the apply phase over one flag set: each
registered option found in the working tree has its key deleted; a value
with no text aborts with "not a string or number" (later options are
left untouched, exactly as the erroring Go callback returns early); an
option already `Seen` keeps its value; otherwise the option receives the
text.  Returns the updated options, the reduced working tree, and the
error if any. -/
def applyOpts (path : String) (opts : List Opt) (m : Tree) :
    List Opt × Tree × Option SErr :=
  match opts with
  | [] => ([], m, none)
  | o :: rest =>
    match findKey m o with
    | none =>
      let r := applyOpts path rest m
      (o :: r.1, r.2.1, r.2.2)
    | some (n, v) =>
      match stringifyV v with
      | none => (o :: rest, delk m n, some (.notStringable path n))
      | some s =>
        if o.seen then
          let r := applyOpts path rest (delk m n)
          (o :: r.1, r.2.1, r.2.2)
        else
          let r := applyOpts path rest (delk m n)
          ({ o with value := s } :: r.1, r.2.1, r.2.2)

/-- The loop over `f.Sets`: the root set (empty name) works on the whole
tree; a named set descends into `tree[name]` when that is a nested
mapping and is skipped otherwise (deletions inside the sub-tree are
stored back, as the Go sub-map is shared by reference); an error from
one set aborts the remaining ones. -/
def applySets (path : String) (sets : List (String × List Opt)) (m : Tree) :
    List (String × List Opt) × Tree × Option SErr :=
  match sets with
  | [] => ([], m, none)
  | (name, opts) :: rest =>
    if name = "" then
      let r := applyOpts path opts m
      match r.2.2 with
      | some err => ((name, r.1) :: rest, r.2.1, some err)
      | none =>
        let r2 := applySets path rest r.2.1
        ((name, r.1) :: r2.1, r2.2.1, r2.2.2)
    else
      match getk m name with
      | some (.map sm) =>
        let r := applyOpts path opts sm
        match r.2.2 with
        | some err => ((name, r.1) :: rest, setk m name (.map r.2.1), some err)
        | none =>
          let r2 := applySets path rest (setk m name (.map r.2.1))
          ((name, r.1) :: r2.1, r2.2.1, r2.2.2)
      | _ =>
        let r2 := applySets path rest m
        ((name, opts) :: r2.1, r2.2.1, r2.2.2)

/-- The unknown-flag rendering: a leftover scalar key `k` becomes `--k`;
every member `sk` of a leftover nested mapping `k` becomes `--k.sk`. -/
def unknownNames (m : Tree) : List String :=
  match m with
  | [] => []
  | (k, .map sm) :: rest => sm.map (fun p => "--" ++ k ++ "." ++ p.1) ++ unknownNames rest
  | (k, _) :: rest => ("--" ++ k) :: unknownNames rest

/-- `sort.Strings`. -/
def sortStrings (l : List String) : List String :=
  List.insertionSort (fun a b => a ≤ b) l

/-- The unknown-key check ending `Flags.Set`: with `IgnoreUnknown`, or
with nothing left in the working tree, success; otherwise the single
aggregated error carrying the sorted rendered names. -/
def unknownCheck (ignore : Bool) (path : String) (m : Tree) : Except SErr Unit :=
  if ignore then .ok ()
  else match unknownNames m with
    | [] => .ok ()
    | ns => .error (.unknownFlags path (sortStrings ns))

/-- The apply phase of `Flags.Set`: duplicate the accumulated tree
(`mergemap(nil, f.m)`), feed the duplicate to every bound set, and end
with the unknown-key check. -/
def applyPhase (st : FState) (path : String) (reads : List String) : SetOut :=
  let r := applySets path st.sets (mergemap [] st.m)
  match r.2.2 with
  | some err => ⟨{ st with sets := r.1 }, .error err, reads⟩
  | none => ⟨{ st with sets := r.1 }, unknownCheck st.ignoreUnknown path r.2.1, reads⟩

/-- The private rescan sentinel (`rescanFlags` in flags.go). -/
def rescanSentinel : String := "\x00\x00\x00"

/-- Head character of a string. -/
def strHead (s : String) : Option Char := s.toList.head?

/-- All characters of a string but the first (`value[1:]`). -/
def strTail (s : String) : String := (s.toList.drop 1).asString

/-- File read then decode then merge then apply: the common tail of
`Flags.Set` once a readable source was found at `p` with contents
`data`.  `f.path` is recorded, surrounding whitespace is trimmed, empty
content is a success, a decoder error is annotated with the path, and a
decoded tree is merged into `f.m` before the apply phase runs. -/
def flagsAfterRead (dec : String → Except String Tree) (st : FState) (p : String)
    (data : String) (reads : List String) : SetOut :=
  let stp := { st with path := p }
  let data2 := trimS data
  if data2 = "" then ⟨stp, .ok (), reads⟩
  else match dec data2 with
    | .error e => ⟨stp, .error (.decode p e), reads⟩
    | .ok dm => applyPhase { stp with m := mergemap stp.m dm } p reads

/-- The source dispatch of `Flags.Set` after the early returns: the
rescan sentinel re-applies the accumulated tree under the remembered
path; a leading `?` makes an unreadable file a silent success; any other
value is a path whose read failure is the returned error. -/
def flagsSetBody (fsys : String → Option String) (dec : String → Except String Tree)
    (st : FState) (value : String) : SetOut :=
  if value = rescanSentinel then applyPhase st st.path []
  else if strHead value = some '?' then
    let p := strTail value
    match fsys p with
    | none => ⟨st, .ok (), [p]⟩
    | some data => flagsAfterRead dec st p data [p]
  else
    match fsys value with
    | none => ⟨st, .error (.readFile value), [value]⟩
    | some data => flagsAfterRead dec st value data [value]

/-- `Flags.Set` from flags.go: expand the value, return at once on empty
or bare `?`, fall back to the registration option when `opt` is nil (an
unregistered `Flags` is an error), ignore the call entirely when `opt`
has not been seen, then process the source. -/
def flagsSet (env : String → String) (fsys : String → Option String)
    (dec : String → Except String Tree) (st : FState) (value0 : String)
    (oa : OptArg) : SetOut :=
  let value := expand env value0
  if value = "" ∨ value = "?" then ⟨st, .ok (), []⟩
  else
    match oa with
    | .notSeenOpt => ⟨st, .ok (), []⟩
    | .noOpt =>
      if st.registered then flagsSetBody fsys dec st value
      else ⟨st, .error .notRegistered, []⟩
    | .seenOpt => flagsSetBody fsys dec st value

/-- `Flags.Rescan` from flags.go: temporarily make `(name, set)` the only
bound set, run `Set` with the rescan sentinel and a nil option, and
restore the original `Sets` before returning.  The second component is
the updated flag set (in Go the caller's `*getopt.Set` is shared by
reference and keeps its newly applied values). -/
def rescanF (env : String → String) (fsys : String → Option String)
    (dec : String → Except String Tree) (st : FState) (name : String)
    (nset : List Opt) : SetOut × List Opt :=
  let out := flagsSet env fsys dec { st with sets := [(name, nset)] } rescanSentinel .noOpt
  (⟨{ out.st with sets := st.sets }, out.res, out.reads⟩,
   match out.st.sets with
   | [(_, opts)] => opts
   | _ => nset)

/-- Whether a command-line token `--name` selects this option (long name
first, then short name; empty names never match). -/
def optMatches (o : Opt) (name : String) : Prop :=
  (o.long = name ∧ name ≠ "") ∨ (o.short = name ∧ name ≠ "")

instance (o : Opt) (name : String) : Decidable (optMatches o name) := by
  unfold optMatches
  exact inferInstance

/-- Modelled from the spec: the excluded CLI layer (the getopt package)
parsing one command-line occurrence `--name=val` against a flag set —
the named flag receives the value and its `Seen` mark is set.  This is
the collaborator operation the precedence claims quantify over. -/
def cmdlineSet (opts : List Opt) (name val : String) : List Opt :=
  opts.map fun o =>
    if optMatches o name then { o with value := val, seen := true } else o

end OptionsV

namespace OptionsV

/-! ## Claim C3: the environment expander -/

theorem breakBrace_eq_none (l : List Char) (h : '\x7d' ∉ l) : breakBrace l = none := by
  induction l with
  | nil => simp [breakBrace]
  | cons c rest ih =>
    simp at h
    simp [breakBrace, Ne.symm h.1, ih h.2]

theorem breakBrace_append (inside after : List Char) (h : '\x7d' ∉ inside) :
    breakBrace (inside ++ '\x7d' :: after) = some (inside, after) := by
  induction inside with
  | nil => simp [breakBrace]
  | cons c rest ih =>
    simp at h
    simp [breakBrace, Ne.symm h.1, ih h.2]

/-- The environment of the repository's expansion tests: `V1=value1`,
`V2=value2`, `V3=` (set but empty), everything else unset (Go's
`os.Getenv` returns the empty string for unset names). -/
def envEx : String → String := fun n =>
  if n = "V1" then "value1" else if n = "V2" then "value2" else ""

/-- C3.  `expand` is a single left-to-right pass: `$\x7b` immediately
followed by `$` emits a literal `$\x7b` and the scan resumes after the
`$`; a `$\x7b` with no matching `\x7d` emits the remainder verbatim; inside
braces the body splits at the first `:-` into a name and a default, and
the environment value is substituted when set and non-empty, otherwise
the default, with no re-scan of substituted text; and the three recorded
examples hold. -/
theorem c3_expand_single_pass :
    (∀ (env : String → String) (rest : List Char),
       expandL env ('$' :: '\x7b' :: '$' :: rest) = '$' :: '\x7b' :: expandL env rest)
  ∧ (∀ (env : String → String) (rest : List Char), rest ≠ [] →
       rest.head? ≠ some '$' → '\x7d' ∉ rest →
       expandL env ('$' :: '\x7b' :: rest) = '$' :: '\x7b' :: rest)
  ∧ (∀ (env : String → String) (inside after : List Char),
       inside.head? ≠ some '$' → '\x7d' ∉ inside →
       expandL env ('$' :: '\x7b' :: (inside ++ '\x7d' :: after)) =
         (if env (splitColonDash inside).1.asString ≠ ""
          then (env (splitColonDash inside).1.asString).toList
          else (splitColonDash inside).2) ++ expandL env after)
  ∧ expand envEx "$\x7bV1\x7d" = "value1"
  ∧ expand envEx "$\x7bV3:-missing\x7d" = "missing"
  ∧ expand envEx "$\x7b$\x7babc" = "$\x7b\x7babc" := by
  refine ⟨?_, ?_, ?_, ?_, ?_, ?_⟩
  · intro env rest
    simp [expandL]
  · intro env rest h1 h2 h3
    rcases rest with _ | ⟨c, rest2⟩
    · simp at h1
    · have hc : c ≠ '$' := by simpa using h2
      simp at h3
      have hbB : breakBrace (c :: rest2) = none :=
        breakBrace_eq_none _ (by simp [h3.1, h3.2])
      simp only [expandL, hc, if_false, reduceIte]
      split
      · rfl
      · next inside after hbEq => rw [hbB] at hbEq; exact absurd hbEq (by simp)
  · intro env inside after h1 h2
    rcases inside with _ | ⟨c, rest2⟩
    · simp [expandL, breakBrace, splitColonDash]
    · have hc : c ≠ '$' := by simpa using h1
      simp at h2
      have hb := breakBrace_append (c :: rest2) after (by simp [h2.1, h2.2])
      simp only [List.cons_append] at hb ⊢
      simp only [expandL, hc, if_false, reduceIte]
      split
      · next hbEq => rw [hb] at hbEq; exact absurd hbEq (by simp)
      · next inside2 after2 hbEq =>
        rw [hb] at hbEq
        injection hbEq with hpair
        injection hpair with he1 he2
        subst he1
        subst he2
        rfl
  · simp [expand, expandL, breakBrace, splitColonDash, envEx]
    decide
  · simp [expand, expandL, breakBrace, splitColonDash, envEx]
    decide
  · simp [expand, expandL, breakBrace, splitColonDash, envEx]
    decide

theorem c3_expand_single_pass_witness :
    expandL envEx ('$' :: '\x7b' :: "abc".toList) = '$' :: '\x7b' :: "abc".toList ∧
    expandL envEx ('$' :: '\x7b' :: ("V1".toList ++ '\x7d' :: "xy".toList)) =
      "value1".toList ++ expandL envEx "xy".toList :=
  ⟨c3_expand_single_pass.2.1 envEx "abc".toList (by simp) (by decide) (by decide),
   by
    have h := c3_expand_single_pass.2.2.1 envEx "V1".toList "xy".toList (by decide) (by decide)
    simpa [splitColonDash, envEx] using h⟩

end OptionsV

namespace OptionsV

/-! ## Claim C2: the merge performed by `Flags.Set` -/

/-- Modelled from the spec's words (for comparison with the source's
`mergemap`): "for each top-level key, if both old and new values are
nested mappings, merge recursively (new keys win, old keys not present
in new are kept); otherwise the new value fully replaces the old". -/
def mergeSpec (old new : Tree) : Tree :=
  match new with
  | [] => old
  | (k, .map nm) :: rest =>
    match getk old k with
    | some (.map om) => mergeSpec (setk old k (.map (mergeSpec om nm))) rest
    | _ => mergeSpec (setk old k (.map nm)) rest
  | (k, v) :: rest => mergeSpec (setk old k v) rest
termination_by sizeOf new
decreasing_by all_goals (simp; try omega)

/-- Overlay A of the C2 counterexample: `child.a = 1`, `child.b = 2`. -/
def treeA : Tree := [("child", .map [("a", .str "1"), ("b", .str "2")])]

/-- Overlay B of the C2 counterexample: `child.a = 9`. -/
def treeB : Tree := [("child", .map [("a", .str "9")])]

/-- C2 counterexample.  Merging overlay B over accumulated overlay A
(`f.m = mergemap(f.m, m)` with `f.m = treeA`, `m = treeB`) replaces the
nested mapping under `child` wholesale: the leaf `child.b`, present only
in A, is lost, whereas the recursive merge the claim describes would
keep it. -/
theorem c2_counterexample :
    mergemap treeA treeB = [("child", V.map [("a", V.str "9")])] ∧
    mergeSpec treeA treeB = [("child", V.map [("a", V.str "9"), ("b", V.str "2")])] := by
  constructor
  · simp [treeA, treeB, mergemap, dupV, setk, getk]
  · simp [treeA, treeB, mergeSpec, setk, getk]

/-- C2 amended.  `mergemap(f.m, m)` copies every entry of the newly
decoded mapping `m` over the accumulated tree: a key absent from `m`
keeps its accumulated value, and a key present in `m` takes the new
value wholesale (nested mappings deep-copied, not merged key-by-key);
the deep copy itself is lookup-faithful. -/
theorem c2_mergemap_replaces (new old : Tree) (hnd : (keysOf old).Nodup) :
    (∀ k, getk old k = none → getk (mergemap new old) k = getk new k)
  ∧ (∀ k v, getk old k = some v → getk (mergemap new old) k = some (dupV v))
  ∧ (∀ (sm : Tree) k, (keysOf sm).Nodup →
       getk (mergemap [] sm) k =
         match getk sm k with
         | some v => some (dupV v)
         | none => none) := by
  refine ⟨?_, ?_, ?_⟩
  · intro k hk
    rw [getk_mergemap new old k hnd, hk]
  · intro k v hk
    rw [getk_mergemap new old k hnd, hk]
  · intro sm k hsm
    rw [getk_mergemap [] sm k hsm]
    cases getk sm k <;> simp [getk]

theorem c2_mergemap_replaces_witness :
    getk (mergemap treeA treeB) "child" = some (dupV (V.map [("a", V.str "9")])) :=
  (c2_mergemap_replaces treeA treeB (by simp [treeB, keysOf])).2.1 "child"
    (V.map [("a", V.str "9")]) (by simp [treeB, getk])

end OptionsV

namespace OptionsV

/-! ## Claim C7: scalar/table conflicts in `SimpleDecoder` -/

/-- C7.  Dotted keys do build nested sub-trees, and using a key as a
scalar first and as a nested table afterwards is detected as an error;
but in the opposite order (`sub.key = value` then `sub = other`) the
decoder silently overwrites the nested table with the scalar and
succeeds, contradicting the claim (and the repository's own
`field conflict2` test, which expects `conflict on field sub`). -/
theorem c7_simple_conflict_one_sided :
    simpleDecoder "a.b = v" = .ok [("a", V.map [("b", V.str "v")])]
  ∧ simpleDecoder "sub = other\nsub.key = value" =
      .error "sub.key: conflict on field sub"
  ∧ simpleDecoder "sub.key = value\nsub = other" = .ok [("sub", V.str "other")] :=
  ⟨rfl, rfl, rfl⟩

end OptionsV

namespace OptionsV

/-! ## Claim C5: configuration errors in the validating entry points -/

/-- C5.  In src/flags/options.go the validating entry points reach the
same `register` loop as the eager ones, and that loop panics: a field
whose getopt tag is malformed (here `--a --b`, two names) makes
`register` — hence `Validate` and `RegisterSet` — panic rather than
return an error, and so does a field of an unsupported type; only the
not-a-struct check is a returned error. -/
theorem c5_validate_panics :
    registerGo true [⟨"Name", "--a --b", .str⟩] = .panics .tooManyNames
  ∧ registerGo true [⟨"Count", "--count", .unsupported⟩] = .panicsInvalidType "Count"
  ∧ (∀ fields, registerGo false fields = .errRes "not a pointer to a struct") := by
  refine ⟨?_, ?_, ?_⟩
  · simp [registerGo, registerFields, parseTagF, parseTagLoopF, nextOptionL,
      splitAtSpace, splitAtEq, trimL, trimLeftL, isSp]
    decide
  · simp [registerGo, registerFields, parseTagF, parseTagLoopF, nextOptionL,
      splitAtSpace, splitAtEq, trimL, trimLeftL, isSp]
    decide
  · intro fields
    simp [registerGo]

end OptionsV

namespace OptionsV

/-! ## Claim C9: a not-yet-seen option makes `Set` a complete no-op -/

/-- C9.  For every environment, file system, decoder, state and value,
calling `Flags.Set` with a non-nil option whose `Seen()` is false
returns nil, reads no file, and leaves the whole `Flags` state — path,
accumulated tree, and `Sets` — unchanged. -/
theorem c9_unseen_opt_noop (env : String → String) (fsys : String → Option String)
    (dec : String → Except String Tree) (st : FState) (value0 : String) :
    flagsSet env fsys dec st value0 .notSeenOpt = ⟨st, .ok (), []⟩ := by
  simp [flagsSet]

end OptionsV

namespace OptionsV

/-! ## Claim C8: classification of the `Set` value -/

theorem qmark_append_toList (p : String) : ("?" ++ p).toList = '?' :: p.toList := rfl

/-- C8.  After environment expansion, `Flags.Set` classifies its value:
empty or bare `?` is a success that reads nothing and changes nothing
(whatever the `opt` argument); a leading `?` before a path reads the
file and an unreadable file is still a success; a plain path reads the
file and an unreadable file is the returned error. -/
theorem c8_source_classification (env : String → String) (fsys : String → Option String)
    (dec : String → Except String Tree) (st : FState) (value0 p : String) :
    ((expand env value0 = "" ∨ expand env value0 = "?") →
      ∀ oa, flagsSet env fsys dec st value0 oa = ⟨st, .ok (), []⟩)
  ∧ (expand env value0 = "?" ++ p → p ≠ "" → fsys p = none →
      flagsSet env fsys dec st value0 .seenOpt = ⟨st, .ok (), [p]⟩)
  ∧ (expand env value0 = p → p ≠ "" → p ≠ "?" → strHead p ≠ some '?' →
      p ≠ rescanSentinel → fsys p = none →
      flagsSet env fsys dec st value0 .seenOpt = ⟨st, .error (.readFile p), [p]⟩) := by
  refine ⟨?_, ?_, ?_⟩
  · intro h oa
    rcases h with h | h <;> cases oa <;> simp [flagsSet, h]
  · intro h hp hf
    have hq : ("?" ++ p).toList = '?' :: p.toList := qmark_append_toList p
    have hne1 : ¬("?" ++ p = "") := by
      intro he
      have := congrArg String.toList he
      simp [hq] at this
    have hne2 : ¬("?" ++ p = "?") := by
      intro he
      have h2 := congrArg String.toList he
      rw [hq] at h2
      have h3 : p.toList = "".toList := by
        have : '?' :: p.toList = '?' :: "".toList := h2
        exact List.tail_eq_of_cons_eq this
      have h4 := congrArg List.asString h3
      rw [String.asString_toList, String.asString_toList] at h4
      exact hp h4
    have hne3 : ¬("?" ++ p = rescanSentinel) := by
      intro he
      have h2 := congrArg String.toList he
      rw [hq] at h2
      simp [rescanSentinel] at h2
    have hhd : strHead ("?" ++ p) = some '?' := by simp [strHead, hq]
    have htl : strTail ("?" ++ p) = p := by
      rw [strTail, hq]
      exact String.asString_toList p
    simp [flagsSet, h, hne1, hne2, flagsSetBody, hne3, hhd, htl, hf]
  · intro h hp hq hh hs hf
    simp [flagsSet, h, hp, hq, flagsSetBody, hs, hh, hf]

theorem c8_source_classification_witness :
    flagsSet envEx (fun _ => none) simpleDecoder
        ⟨[], false, "", true, []⟩ "" .noOpt = ⟨⟨[], false, "", true, []⟩, .ok (), []⟩
  ∧ flagsSet envEx (fun _ => none) simpleDecoder
        ⟨[], false, "", true, []⟩ "?nofile" .seenOpt = ⟨⟨[], false, "", true, []⟩, .ok (), ["nofile"]⟩
  ∧ flagsSet envEx (fun _ => none) simpleDecoder
        ⟨[], false, "", true, []⟩ "nofile" .seenOpt =
      ⟨⟨[], false, "", true, []⟩, .error (.readFile "nofile"), ["nofile"]⟩ := by
  refine ⟨?_, ?_, ?_⟩
  · exact (c8_source_classification envEx (fun _ => none) simpleDecoder
      ⟨[], false, "", true, []⟩ "" "").1 (by left; simp [expand, expandL]; rfl) .noOpt
  · have h := (c8_source_classification envEx (fun _ => none) simpleDecoder
      ⟨[], false, "", true, []⟩ "?nofile" "nofile").2.1
    exact h (by simp [expand, expandL]; decide) (by decide) rfl
  · have h := (c8_source_classification envEx (fun _ => none) simpleDecoder
      ⟨[], false, "", true, []⟩ "nofile" "nofile").2.2
    exact h (by simp [expand, expandL]; decide) (by decide) (by decide)
      (by decide) (by decide) rfl

end OptionsV

namespace OptionsV

/-! ## Claim C4: unknown-key detection -/

theorem applyOpts_err_shape (path : String) (opts : List Opt) (m : Tree) :
    ∀ e, (applyOpts path opts m).2.2 = some e → ∃ n, e = .notStringable path n := by
  induction opts generalizing m with
  | nil => intro e he; simp [applyOpts] at he
  | cons o rest ih =>
    intro e he
    rcases hfk : findKey m o with _ | ⟨n, v⟩
    · simp only [applyOpts, hfk] at he
      exact ih _ e he
    · rcases hs : stringifyV v with _ | s
      · simp only [applyOpts, hfk, hs] at he
        exact ⟨n, (Option.some.inj he).symm⟩
      · by_cases hseen : o.seen <;>
          simp only [applyOpts, hfk, hs, hseen, if_true, if_false, reduceIte] at he <;>
          exact ih _ e he

theorem applySets_err_shape (path : String) (sets : List (String × List Opt)) (m : Tree) :
    ∀ e, (applySets path sets m).2.2 = some e → ∃ n, e = .notStringable path n := by
  induction sets generalizing m with
  | nil => intro e he; simp [applySets] at he
  | cons p rest ih =>
    obtain ⟨name, opts⟩ := p
    intro e he
    by_cases hname : name = ""
    · rcases hao : (applyOpts path opts m).2.2 with _ | err
      · simp only [applySets, hname, if_true, reduceIte, hao] at he
        exact ih _ e he
      · simp only [applySets, hname, if_true, reduceIte, hao] at he
        obtain ⟨n, hn⟩ := applyOpts_err_shape path opts m err hao
        exact ⟨n, by rw [← Option.some.inj he]; exact hn⟩
    · rcases hg : getk m name with _ | v
      · simp only [applySets, hname, if_false, reduceIte, hg] at he
        exact ih _ e he
      · rcases v with s | b | ns | sm | _
        · simp only [applySets, hname, if_false, reduceIte, hg] at he
          exact ih _ e he
        · simp only [applySets, hname, if_false, reduceIte, hg] at he
          exact ih _ e he
        · simp only [applySets, hname, if_false, reduceIte, hg] at he
          exact ih _ e he
        · rcases hao : (applyOpts path opts sm).2.2 with _ | err
          · simp only [applySets, hname, if_false, reduceIte, hg, hao] at he
            exact ih _ e he
          · simp only [applySets, hname, if_false, reduceIte, hg, hao] at he
            obtain ⟨n, hn⟩ := applyOpts_err_shape path opts sm err hao
            exact ⟨n, by rw [← Option.some.inj he]; exact hn⟩
        · simp only [applySets, hname, if_false, reduceIte, hg] at he
          exact ih _ e he

theorem applyPhase_no_unknown_of_ignore (st : FState) (path : String)
    (reads : List String) (hig : st.ignoreUnknown = true) :
    ∀ h ns, (applyPhase st path reads).res ≠ .error (.unknownFlags h ns) := by
  intro h ns
  rcases has : (applySets path st.sets (mergemap [] st.m)).2.2 with _ | err
  · simp only [applyPhase, has]
    simp [unknownCheck, hig]
  · simp only [applyPhase, has]
    simp
    intro hcontra
    obtain ⟨n, hn⟩ := applySets_err_shape path st.sets (mergemap [] st.m) err has
    rw [hn] at hcontra
    exact SErr.noConfusion hcontra

theorem flagsSetBody_no_unknown (fsys : String → Option String)
    (dec : String → Except String Tree) (st : FState) (value : String)
    (hig : st.ignoreUnknown = true) :
    ∀ h ns, (flagsSetBody fsys dec st value).res ≠ .error (.unknownFlags h ns) := by
  intro h ns
  rw [flagsSetBody]
  by_cases hres : value = rescanSentinel
  · simp only [hres, if_true, reduceIte]
    exact applyPhase_no_unknown_of_ignore st st.path [] hig h ns
  · simp only [hres, if_false, reduceIte]
    by_cases hq : strHead value = some '?'
    · simp only [hq, if_true, reduceIte]
      rcases hf : fsys (strTail value) with _ | data
      · simp
      · simp only [flagsAfterRead]
        by_cases hd : trimS data = ""
        · simp [hd]
        · simp only [hd, if_false, reduceIte]
          rcases hdec : dec (trimS data) with e2 | dm
          · simp [hdec]
          · simp only [hdec]
            exact applyPhase_no_unknown_of_ignore
              { st with path := strTail value, m := mergemap st.m dm }
              (strTail value) [strTail value] hig h ns
    · simp only [hq, if_false, reduceIte]
      rcases hf : fsys value with _ | data
      · simp
      · simp only [flagsAfterRead]
        by_cases hd : trimS data = ""
        · simp [hd]
        · simp only [hd, if_false, reduceIte]
          rcases hdec : dec (trimS data) with e2 | dm
          · simp [hdec]
          · simp only [hdec]
            exact applyPhase_no_unknown_of_ignore
              { st with path := value, m := mergemap st.m dm } value [value] hig h ns

/-- C4.  The unknown-key check: with `IgnoreUnknown` it always succeeds
and `Flags.Set` can never return an unknown-flags error; with nothing
left over it succeeds; otherwise it returns exactly one error carrying
every rendered leftover name (`--key` for scalars, `--parent.child` for
members of leftover nested mappings), sorted lexically. -/
theorem c4_unknown_keys :
    (∀ path m, unknownCheck true path m = .ok ())
  ∧ (∀ path m, unknownNames m = [] → unknownCheck false path m = .ok ())
  ∧ (∀ path m, unknownNames m ≠ [] →
      unknownCheck false path m =
        .error (.unknownFlags path (sortStrings (unknownNames m))) ∧
      List.Sorted (fun a b => a ≤ b) (sortStrings (unknownNames m)) ∧
      ∀ s, s ∈ sortStrings (unknownNames m) ↔ s ∈ unknownNames m)
  ∧ (∀ (k : String) (v : V) (m : Tree), (k, v) ∈ m →
      (∀ sm, v = .map sm → ∀ p2 ∈ sm, ("--" ++ k ++ "." ++ p2.1) ∈ unknownNames m) ∧
      ((∀ sm, v ≠ .map sm) → ("--" ++ k) ∈ unknownNames m))
  ∧ (∀ env fsys dec st v oa, st.ignoreUnknown = true →
      ∀ h ns, (flagsSet env fsys dec st v oa).res ≠ .error (.unknownFlags h ns)) := by
  refine ⟨?_, ?_, ?_, ?_, ?_⟩
  · intro path m
    simp [unknownCheck]
  · intro path m hm
    simp [unknownCheck, hm]
  · intro path m hm
    refine ⟨?_, ?_, ?_⟩
    · rw [unknownCheck]
      rcases hu : unknownNames m with _ | ⟨n, ns⟩
      · exact absurd hu hm
      · simp
    · exact List.sorted_insertionSort _ _
    · intro s
      exact (List.perm_insertionSort _ _).mem_iff
  · intro k v m hkv
    induction m with
    | nil => simp at hkv
    | cons p rest ih =>
      obtain ⟨k1, v1⟩ := p
      rw [List.mem_cons] at hkv
      rcases hkv with heq | hmem
      · injection heq with he1 he2
        subst he1
        subst he2
        constructor
        · intro sm hsm p2 hp2
          subst hsm
          simp [unknownNames]
          left
          exact ⟨p2.1, ⟨p2.2, hp2⟩, rfl⟩
        · intro hnm
          rcases v with s | b | ns | sm | _
          · simp [unknownNames]
          · simp [unknownNames]
          · simp [unknownNames]
          · exact absurd rfl (hnm sm)
          · simp [unknownNames]
      · have hih := ih hmem
        constructor
        · intro sm hsm p2 hp2
          rcases v1 with s | b | ns | sm1 | _ <;>
            simp [unknownNames] <;> right <;> exact hih.1 sm hsm p2 hp2
        · intro hnm
          rcases v1 with s | b | ns | sm1 | _ <;>
            simp [unknownNames] <;> right <;> exact hih.2 hnm
  · intro env fsys dec st v oa hig h ns
    simp only [flagsSet]
    by_cases hv : expand env v = "" ∨ expand env v = "?"
    · simp [hv]
    · simp only [hv, if_false, reduceIte]
      rcases oa with _ | _ | _
      · by_cases hreg : st.registered
        · simp only [hreg, if_true, reduceIte]
          exact flagsSetBody_no_unknown fsys dec st _ hig h ns
        · simp [hreg]
      · exact flagsSetBody_no_unknown fsys dec st _ hig h ns
      · simp

end OptionsV

namespace OptionsV

theorem c4_unknown_keys_witness :
    unknownNames [("b", V.str "1"), ("a", V.map [("x", V.str "2")])] = ["--b", "--a.x"]
  ∧ unknownCheck false "file" [("b", V.str "1"), ("a", V.map [("x", V.str "2")])] =
      .error (.unknownFlags "file" (sortStrings ["--b", "--a.x"]))
  ∧ List.Sorted (fun a b => a ≤ b) (sortStrings ["--b", "--a.x"]) := by
  have h := (c4_unknown_keys).2.2.1 "file"
    [("b", V.str "1"), ("a", V.map [("x", V.str "2")])] (by simp [unknownNames])
  have hn : unknownNames [("b", V.str "1"), ("a", V.map [("x", V.str "2")])] =
      ["--b", "--a.x"] := rfl
  refine ⟨hn, ?_, ?_⟩
  · rw [h.1, hn]
  · rw [← hn]
    exact h.2.1

end OptionsV

namespace OptionsV

/-! ## Claim C6: the help-text terminator of `parseTag` -/

theorem splitAtSpace_no_space (t : List Char) (h : ' ' ∉ t) : splitAtSpace t = (t, []) := by
  induction t with
  | nil => simp [splitAtSpace]
  | cons c rest ih =>
    simp at h
    simp [splitAtSpace, Ne.symm h.1, ih h.2]

theorem splitAtSpace_append (t l : List Char) (h : ' ' ∉ t) :
    splitAtSpace (t ++ ' ' :: l) = (t, l) := by
  induction t with
  | nil => simp [splitAtSpace]
  | cons c rest ih =>
    simp at h
    simp [splitAtSpace, Ne.symm h.1, ih h.2]

theorem trimLeftL_eq_self (l : List Char) (h : ∀ c, l.head? = some c → isSp c = false) :
    trimLeftL l = l := by
  cases l with
  | nil => simp [trimLeftL]
  | cons c rest =>
    have := h c (by simp)
    simp [trimLeftL, List.dropWhile_cons, this]

theorem trimL_eq_self (l : List Char) (hh : ∀ c, l.head? = some c → isSp c = false)
    (hl : ∀ c, l.getLast? = some c → isSp c = false) : trimL l = l := by
  unfold trimL
  rw [trimLeftL_eq_self l hh]
  rw [trimLeftL_eq_self l.reverse (by intro c hc; exact hl c (by rwa [← List.head?_reverse]))]
  exact List.reverse_reverse l

theorem nextOptionL_token (t l : List Char) (c0 : Char) (hhd : t.head? = some c0)
    (hc0 : c0 = '-') (hs : ' ' ∉ t) :
    nextOptionL (t ++ ' ' :: l) = ((splitAtEq t).1, (splitAtEq t).2, trimL l) := by
  subst hc0
  cases t with
  | nil => simp at hhd
  | cons c rest =>
    simp at hhd
    subst hhd
    simp only [List.cons_append, nextOptionL, ne_eq, not_true_eq_false, if_false, reduceIte]
    rw [← List.cons_append]
    rw [splitAtSpace_append ('-' :: rest) l hs]

/-- Join whitespace-separated tokens back into a tag string. -/
def joinTokens (ts : List (List Char)) : List Char :=
  match ts with
  | [] => []
  | [t] => t
  | t :: rest => t ++ ' ' :: joinTokens rest

/-- Fold `stepTok` over raw option tokens (each split at its `=`),
mirroring what the `parseTag` loop does to the tokens before a
terminator. -/
def processToks (o : OptTag) (ts : List (List Char)) : Except TagErr OptTag :=
  match ts with
  | [] => .ok o
  | t :: rest =>
    match stepTok o (splitAtEq t).1 (splitAtEq t).2 with
    | .error e => .error e
    | .ok o2 => processToks o2 rest

/-- A well-formed option token: non-empty, starting with `-`, without
spaces, and not itself a bare terminator. -/
def goodTok (t : List Char) : Prop :=
  t.head? = some '-' ∧ ' ' ∉ t ∧ (splitAtEq t).1 ≠ ['-'] ∧ (splitAtEq t).1 ≠ ['-', '-']

theorem joinTokens_cons (t : List Char) (ts : List (List Char)) (h : ts ≠ []) :
    joinTokens (t :: ts) = t ++ ' ' :: joinTokens ts := by
  cases ts with
  | nil => exact absurd rfl h
  | cons t2 rest => rfl

theorem joinTokensTerm_ne_nil (ts : List (List Char)) (term : List Char)
    (htne : term ≠ []) : joinTokens (ts ++ [term]) ≠ [] := by
  cases ts with
  | nil => simpa [joinTokens] using htne
  | cons t rest =>
    rw [List.cons_append, joinTokens_cons t (rest ++ [term]) (by simp)]
    cases t with
    | nil => simp
    | cons c r => simp

theorem joinTokensTerm_getLast (ts : List (List Char)) (term : List Char)
    (htl : term.getLast? = some '-') :
    (joinTokens (ts ++ [term])).getLast? = some '-' := by
  induction ts with
  | nil => simpa [joinTokens] using htl
  | cons t rest ih =>
    rw [List.cons_append, joinTokens_cons t (rest ++ [term]) (by simp)]
    rw [List.getLast?_append]
    rw [show (' ' :: joinTokens (rest ++ [term])) =
      [' '] ++ joinTokens (rest ++ [term]) from rfl]
    rw [List.getLast?_append, ih]
    rfl

theorem splitAtEq_head (t : List Char) (c : Char) (hhd : t.head? = some c)
    (hc : c ≠ '=') : (splitAtEq t).1.head? = some c := by
  cases t with
  | nil => simp at hhd
  | cons c1 rest =>
    simp at hhd
    subst hhd
    simp [splitAtEq, hc]

end OptionsV

namespace OptionsV

theorem parseTagLoop_terminator (toks : List (List Char)) (o o2 : OptTag)
    (rest term : List Char)
    (hterm : term = ['-'] ∨ term = ['-', '-'])
    (hg : ∀ t ∈ toks, goodTok t)
    (hp : processToks o toks = .ok o2)
    (hname : ¬(o2.long = "" ∧ o2.short = none))
    (hh : ∀ c, rest.head? = some c → isSp c = false)
    (hl : ∀ c, rest.getLast? = some c → isSp c = false) :
    parseTagLoop o (joinTokens (toks ++ [term]) ++ (if rest = [] then [] else ' ' :: rest)) =
      .ok (some { o2 with help := rest.asString }) := by
  have htl : term.getLast? = some '-' := by
    rcases hterm with h | h <;> rw [h] <;> rfl
  induction toks generalizing o with
  | nil =>
    simp [processToks] at hp
    subst hp
    by_cases hr : rest = []
    · subst hr
      simp only [List.nil_append, joinTokens, if_pos rfl, reduceIte, List.append_nil]
      rcases hterm with h | h <;> rw [h] <;>
        simp [parseTagLoop, nextOptionL, splitAtSpace, splitAtEq, trimL, trimLeftL, isSp, hname]
    · simp only [List.nil_append, joinTokens, hr, if_false, reduceIte]
      have hn : nextOptionL (term ++ ' ' :: rest) = (term, [], trimL rest) := by
        rcases hterm with h | h <;> subst h
        · rw [nextOptionL_token ['-'] rest '-' (by simp) rfl (by simp)]
          simp [splitAtEq]
        · rw [nextOptionL_token ['-', '-'] rest '-' (by simp) rfl (by simp)]
          simp [splitAtEq]
      rw [parseTagLoop]
      simp only [hn, trimL_eq_self rest hh hl]
      rcases hterm with h | h <;> subst h <;> simp [hname]
  | cons t ts ih =>
    have hgt := hg t (by simp)
    obtain ⟨hhd, hsp, hne1, hne2⟩ := hgt
    rcases hst : stepTok o (splitAtEq t).1 (splitAtEq t).2 with e | oMid
    · rw [processToks, hst] at hp
      simp at hp
    · rw [processToks, hst] at hp
      have hp2 : processToks oMid ts = Except.ok o2 := hp
      rw [List.cons_append, joinTokens_cons t (ts ++ [term]) (by simp)]
      rw [List.append_assoc, List.cons_append]
      have harg0 : (splitAtEq t).1.head? = some '-' := splitAtEq_head t '-' hhd (by decide)
      have hREST1 : ∀ c,
          (joinTokens (ts ++ [term]) ++ if rest = [] then [] else ' ' :: rest).head? =
            some c → isSp c = false := by
        intro c hc
        rcases ts with _ | ⟨t2, ts2⟩
        · simp only [List.nil_append, joinTokens] at hc
          rcases hterm with h | h <;> rw [h] at hc <;>
            by_cases hr : rest = [] <;> simp [hr] at hc <;> subst hc <;> rfl
        · have h2 := hg t2 (by simp)
          have h2hd : t2.head? = some '-' := h2.1
          rw [List.cons_append, joinTokens_cons t2 (ts2 ++ [term]) (by simp)] at hc
          rcases t2 with _ | ⟨c2, r2⟩
          · simp at h2hd
          · simp at h2hd
            subst h2hd
            simp at hc
            subst hc
            rfl
      have hREST2 : ∀ c,
          (joinTokens (ts ++ [term]) ++ if rest = [] then [] else ' ' :: rest).getLast? =
            some c → isSp c = false := by
        intro c hc
        by_cases hr : rest = []
        · simp only [hr, if_pos rfl, reduceIte, List.append_nil] at hc
          rw [joinTokensTerm_getLast ts term htl] at hc
          rw [← Option.some.inj hc]
          rfl
        · simp only [hr, if_false, reduceIte] at hc
          rcases rest with _ | ⟨c3, r3⟩
          · exact absurd rfl hr
          · have hcl := List.getLast?_eq_getLast (c3 :: r3) (by simp)
            rw [List.getLast?_append, show (' ' :: (c3 :: r3)) = [' '] ++ (c3 :: r3) from rfl,
              List.getLast?_append, hcl] at hc
            simp [Option.or] at hc
            rw [← hc]
            exact hl _ hcl
      have hn : nextOptionL (t ++ ' ' ::
          (joinTokens (ts ++ [term]) ++ if rest = [] then [] else ' ' :: rest)) =
          ((splitAtEq t).1, (splitAtEq t).2,
            joinTokens (ts ++ [term]) ++ if rest = [] then [] else ' ' :: rest) := by
        rw [nextOptionL_token t _ '-' hhd rfl hsp]
        rw [trimL_eq_self _ hREST1 hREST2]
      rw [parseTagLoop]
      simp only [hn]
      have harg : ¬((splitAtEq t).1 = [] ∨ (splitAtEq t).1 = ['-'] ∨
          (splitAtEq t).1 = ['-', '-']) := by
        push_neg
        refine ⟨?_, hne1, hne2⟩
        intro hcon
        rw [hcon] at harg0
        simp at harg0
      simp only [dif_neg harg, hst]
      exact ih oMid (fun t2 ht2 => hg t2 (by simp [ht2])) hp2

end OptionsV

namespace OptionsV

theorem tagTerm_head (toks : List (List Char)) (rest term : List Char)
    (hterm : term = ['-'] ∨ term = ['-', '-'])
    (hg : ∀ t ∈ toks, goodTok t) :
    ∀ c, (joinTokens (toks ++ [term]) ++
        if rest = [] then [] else ' ' :: rest).head? = some c → isSp c = false := by
  intro c hc
  rcases toks with _ | ⟨t2, ts2⟩
  · simp only [List.nil_append, joinTokens] at hc
    rcases hterm with h | h <;> rw [h] at hc <;>
      by_cases hr : rest = [] <;> simp [hr] at hc <;> subst hc <;> rfl
  · have h2 := hg t2 (by simp)
    have h2hd : t2.head? = some '-' := h2.1
    rw [List.cons_append, joinTokens_cons t2 (ts2 ++ [term]) (by simp)] at hc
    rcases t2 with _ | ⟨c2, r2⟩
    · simp at h2hd
    · simp at h2hd
      subst h2hd
      simp at hc
      subst hc
      rfl

theorem tagTerm_getLast (toks : List (List Char)) (rest term : List Char)
    (hterm : term = ['-'] ∨ term = ['-', '-'])
    (hl : ∀ c, rest.getLast? = some c → isSp c = false) :
    ∀ c, (joinTokens (toks ++ [term]) ++
        if rest = [] then [] else ' ' :: rest).getLast? = some c → isSp c = false := by
  have htl : term.getLast? = some '-' := by
    rcases hterm with h | h <;> rw [h] <;> rfl
  intro c hc
  by_cases hr : rest = []
  · simp only [hr, if_pos rfl, reduceIte, List.append_nil] at hc
    rw [joinTokensTerm_getLast toks term htl] at hc
    rw [← Option.some.inj hc]
    rfl
  · simp only [hr, if_false, reduceIte] at hc
    rcases rest with _ | ⟨c3, r3⟩
    · exact absurd rfl hr
    · have hcl := List.getLast?_eq_getLast (c3 :: r3) (by simp)
      rw [List.getLast?_append, show (' ' :: (c3 :: r3)) = [' '] ++ (c3 :: r3) from rfl,
        List.getLast?_append, hcl] at hc
      simp [Option.or] at hc
      rw [← hc]
      exact hl _ hcl

/-- C6 (amended).  For every tag made of whitespace-separated option
tokens that the tag loop accepts (each starting with `-`, at most one
long, one short and one parameter among them), followed by a bare `-` or
`--` terminator and arbitrary help text (no surrounding whitespace),
`parseTag` succeeds and the descriptor's help text is exactly that
remaining text — even when it begins with a dash.  (The unamended claim
fails when the option tokens themselves are invalid; see the
counterexample.) -/
theorem c6_terminator_help (toks : List (List Char)) (o2 : OptTag) (rest term : List Char)
    (htoks : toks ≠ [])
    (hterm : term = ['-'] ∨ term = ['-', '-'])
    (hg : ∀ t ∈ toks, goodTok t)
    (hp : processToks {} toks = .ok o2)
    (hname : ¬(o2.long = "" ∧ o2.short = none))
    (hh : ∀ c, rest.head? = some c → isSp c = false)
    (hl : ∀ c, rest.getLast? = some c → isSp c = false) :
    parseTagL (joinTokens (toks ++ [term]) ++ (if rest = [] then [] else ' ' :: rest)) =
      .ok (some { o2 with help := rest.asString }) := by
  have htne : term ≠ [] := by
    rcases hterm with h | h <;> rw [h] <;> simp
  have htrim := trimL_eq_self
    (joinTokens (toks ++ [term]) ++ if rest = [] then [] else ' ' :: rest)
    (tagTerm_head toks rest term hterm hg) (tagTerm_getLast toks rest term hterm hl)
  have hne : (joinTokens (toks ++ [term]) ++
      if rest = [] then [] else ' ' :: rest) ≠ [] := by
    intro h
    exact joinTokensTerm_ne_nil toks term htne (List.append_eq_nil.mp h).1
  rw [parseTagL]
  simp only [htrim, hne, if_false, reduceIte]
  exact parseTagLoop_terminator toks {} o2 rest term hterm hg hp hname hh hl

/-- C6 counterexample.  The tag `--a --b -- help` has a bare `--`
terminator following option tokens, yet `parseTag` does not succeed: it
fails on the second long name before ever reaching the terminator, so
the claim's universal "parseTag succeeds" is false as stated. -/
theorem c6_counterexample : parseTag "--a --b -- help" = .error .tooManyLong := by
  simp [parseTag, parseTagL, parseTagLoop, stepTok, nextOptionL,
    splitAtSpace, splitAtEq, trimL, trimLeftL, isSp,
    (by decide : ['a'].asString ≠ ""), (by decide : ['b'].asString ≠ "")]

theorem c6_terminator_help_witness :
    ("--option -- -this is an option".toList =
      joinTokens ([['-', '-', 'o', 'p', 't', 'i', 'o', 'n']] ++ [['-', '-']]) ++
        ' ' :: "-this is an option".toList ∧
     "--option - this is an option".toList =
      joinTokens ([['-', '-', 'o', 'p', 't', 'i', 'o', 'n']] ++ [['-']]) ++
        ' ' :: "this is an option".toList)
  ∧ parseTagL (joinTokens ([['-', '-', 'o', 'p', 't', 'i', 'o', 'n']] ++ [['-', '-']]) ++
        (if "-this is an option".toList = [] then [] else ' ' :: "-this is an option".toList)) =
      .ok (some { long := "option", short := none, param := "",
                  help := "-this is an option".toList.asString })
  ∧ parseTagL (joinTokens ([['-', '-', 'o', 'p', 't', 'i', 'o', 'n']] ++ [['-']]) ++
        (if "this is an option".toList = [] then [] else ' ' :: "this is an option".toList)) =
      .ok (some { long := "option", short := none, param := "",
                  help := "this is an option".toList.asString }) := by
  refine ⟨⟨by decide, by decide⟩, ?_, ?_⟩
  · exact c6_terminator_help [['-', '-', 'o', 'p', 't', 'i', 'o', 'n']]
      { long := "option", short := none, param := "", help := "" }
      "-this is an option".toList ['-', '-'] (by simp) (Or.inr rfl)
      (by
        intro t ht
        simp at ht
        subst ht
        exact ⟨by decide, by decide, by decide, by decide⟩)
      rfl (by decide) (by decide) (by decide)
  · exact c6_terminator_help [['-', '-', 'o', 'p', 't', 'i', 'o', 'n']]
      { long := "option", short := none, param := "", help := "" }
      "this is an option".toList ['-'] (by simp) (Or.inl rfl)
      (by
        intro t ht
        simp at ht
        subst ht
        exact ⟨by decide, by decide, by decide, by decide⟩)
      rfl (by decide) (by decide) (by decide)

end OptionsV

namespace OptionsV

/-! ## Claim C1: command-line precedence -/

/-- An option's relation to its post-apply self: a flag the command line
has already supplied (`Seen`) is never modified by the apply phase. -/
def seenKept (a b : Opt) : Prop := a.seen = true → b = a

/-- `seenKept` lifted to a named set. -/
def setSeenKept (a b : String × List Opt) : Prop :=
  a.1 = b.1 ∧ List.Forall₂ seenKept a.2 b.2

theorem seenKept_refl (l : List Opt) : List.Forall₂ seenKept l l := by
  induction l with
  | nil => exact List.Forall₂.nil
  | cons o rest ih => exact List.Forall₂.cons (fun _ => rfl) ih

theorem setSeenKept_refl (l : List (String × List Opt)) : List.Forall₂ setSeenKept l l := by
  induction l with
  | nil => exact List.Forall₂.nil
  | cons p rest ih => exact List.Forall₂.cons ⟨rfl, seenKept_refl p.2⟩ ih

theorem applyOpts_keeps_seen (path : String) (opts : List Opt) (m : Tree) :
    List.Forall₂ seenKept opts (applyOpts path opts m).1 := by
  induction opts generalizing m with
  | nil => simp [applyOpts]
  | cons o rest ih =>
    rcases hfk : findKey m o with _ | ⟨n, v⟩
    · simp only [applyOpts, hfk]
      exact List.Forall₂.cons (fun _ => rfl) (ih m)
    · rcases hs : stringifyV v with _ | s
      · simp only [applyOpts, hfk, hs]
        exact List.Forall₂.cons (fun _ => rfl) (seenKept_refl rest)
      · by_cases hseen : o.seen
        · simp only [applyOpts, hfk, hs, hseen, if_true, reduceIte]
          exact List.Forall₂.cons (fun _ => rfl) (ih (delk m n))
        · simp only [applyOpts, hfk, hs, hseen, if_false, reduceIte]
          exact List.Forall₂.cons (fun hcon => absurd hcon hseen) (ih (delk m n))

theorem applySets_keeps_seen (path : String) (sets : List (String × List Opt)) (m : Tree) :
    List.Forall₂ setSeenKept sets (applySets path sets m).1 := by
  induction sets generalizing m with
  | nil => simp [applySets]
  | cons p rest ih =>
    obtain ⟨name, opts⟩ := p
    by_cases hname : name = ""
    · rcases hao : (applyOpts path opts m).2.2 with _ | err
      · simp only [applySets, hname, if_pos rfl, reduceIte, hao]
        exact List.Forall₂.cons ⟨rfl, applyOpts_keeps_seen path opts m⟩ (ih _)
      · simp only [applySets, hname, if_pos rfl, reduceIte, hao]
        exact List.Forall₂.cons ⟨rfl, applyOpts_keeps_seen path opts m⟩ (setSeenKept_refl rest)
    · rcases hg : getk m name with _ | v
      · simp only [applySets, hname, if_false, reduceIte, hg]
        exact List.Forall₂.cons ⟨rfl, seenKept_refl opts⟩ (ih m)
      · rcases v with s | b | ns | sm | _
        · simp only [applySets, hname, if_false, reduceIte, hg]
          exact List.Forall₂.cons ⟨rfl, seenKept_refl opts⟩ (ih m)
        · simp only [applySets, hname, if_false, reduceIte, hg]
          exact List.Forall₂.cons ⟨rfl, seenKept_refl opts⟩ (ih m)
        · simp only [applySets, hname, if_false, reduceIte, hg]
          exact List.Forall₂.cons ⟨rfl, seenKept_refl opts⟩ (ih m)
        · rcases hao : (applyOpts path opts sm).2.2 with _ | err
          · simp only [applySets, hname, if_false, reduceIte, hg, hao]
            exact List.Forall₂.cons ⟨rfl, applyOpts_keeps_seen path opts sm⟩ (ih _)
          · simp only [applySets, hname, if_false, reduceIte, hg, hao]
            exact List.Forall₂.cons ⟨rfl, applyOpts_keeps_seen path opts sm⟩
              (setSeenKept_refl rest)
        · simp only [applySets, hname, if_false, reduceIte, hg]
          exact List.Forall₂.cons ⟨rfl, seenKept_refl opts⟩ (ih m)

theorem applyPhase_keeps_seen (st : FState) (path : String) (reads : List String) :
    List.Forall₂ setSeenKept st.sets (applyPhase st path reads).st.sets := by
  rcases has : (applySets path st.sets (mergemap [] st.m)).2.2 with _ | err
  · simp only [applyPhase, has]
    exact applySets_keeps_seen path st.sets (mergemap [] st.m)
  · simp only [applyPhase, has]
    exact applySets_keeps_seen path st.sets (mergemap [] st.m)

theorem flagsSetBody_keeps_seen (fsys : String → Option String)
    (dec : String → Except String Tree) (st : FState) (value : String) :
    List.Forall₂ setSeenKept st.sets (flagsSetBody fsys dec st value).st.sets := by
  rw [flagsSetBody]
  by_cases hres : value = rescanSentinel
  · simp only [hres, if_pos rfl, reduceIte]
    exact applyPhase_keeps_seen st st.path []
  · simp only [hres, if_false, reduceIte]
    by_cases hq : strHead value = some '?'
    · simp only [hq, if_pos rfl, reduceIte]
      rcases hf : fsys (strTail value) with _ | data
      · exact setSeenKept_refl st.sets
      · simp only [flagsAfterRead]
        by_cases hd : trimS data = ""
        · simp only [hd, if_pos rfl, reduceIte]
          exact setSeenKept_refl st.sets
        · simp only [hd, if_false, reduceIte]
          rcases hdec : dec (trimS data) with e2 | dm
          · exact setSeenKept_refl st.sets
          · exact applyPhase_keeps_seen
              { st with path := strTail value, m := mergemap st.m dm } (strTail value)
              [strTail value]
    · simp only [hq, if_false, reduceIte]
      rcases hf : fsys value with _ | data
      · exact setSeenKept_refl st.sets
      · simp only [flagsAfterRead]
        by_cases hd : trimS data = ""
        · simp only [hd, if_pos rfl, reduceIte]
          exact setSeenKept_refl st.sets
        · simp only [hd, if_false, reduceIte]
          rcases hdec : dec (trimS data) with e2 | dm
          · exact setSeenKept_refl st.sets
          · exact applyPhase_keeps_seen
              { st with path := value, m := mergemap st.m dm } value [value]

theorem flagsSet_keeps_seen (env : String → String) (fsys : String → Option String)
    (dec : String → Except String Tree) (st : FState) (value0 : String) (oa : OptArg) :
    List.Forall₂ setSeenKept st.sets (flagsSet env fsys dec st value0 oa).st.sets := by
  simp only [flagsSet]
  by_cases hv : expand env value0 = "" ∨ expand env value0 = "?"
  · simp only [hv, if_pos rfl, reduceIte]
    exact setSeenKept_refl st.sets
  · simp only [hv, if_false, reduceIte]
    rcases oa with _ | _ | _
    · by_cases hreg : st.registered
      · simp only [hreg, if_pos rfl, reduceIte]
        exact flagsSetBody_keeps_seen fsys dec st _
      · simp only [hreg, if_false, reduceIte]
        exact setSeenKept_refl st.sets
    · exact flagsSetBody_keeps_seen fsys dec st _
    · exact setSeenKept_refl st.sets

end OptionsV

namespace OptionsV

theorem cmdlineSet_get (opts : List Opt) (name val : String) (i : Nat)
    (hi : i < opts.length) (hm : optMatches (opts.get ⟨i, hi⟩) name) :
    ∃ hi2 : i < (cmdlineSet opts name val).length,
      ((cmdlineSet opts name val).get ⟨i, hi2⟩).value = val ∧
      ((cmdlineSet opts name val).get ⟨i, hi2⟩).seen = true := by
  have hlen : (cmdlineSet opts name val).length = opts.length := by
    simp [cmdlineSet]
  refine ⟨by rw [hlen]; exact hi, ?_⟩
  have he : (cmdlineSet opts name val).get ⟨i, by rw [hlen]; exact hi⟩ =
      (if optMatches (opts.get ⟨i, hi⟩) name
       then { opts.get ⟨i, hi⟩ with value := val, seen := true }
       else opts.get ⟨i, hi⟩) := by
    simp [cmdlineSet, List.get_eq_getElem, List.getElem_map]
  rw [he, if_pos hm]
  exact ⟨rfl, rfl⟩

/-- C1.  Command-line precedence: (i) `Flags.Set` never modifies a flag
the command line has already supplied — every `Seen` option comes out of
the call unchanged, in every bound set; (ii) the command-line parse of
`--name=val` sets the matching flag's value to `val` and marks it seen,
so a later `Set` (by (i)) keeps it and an earlier `Set` is overwritten
by it; (iii) combined: if the command line sets a flag and `Flags.Set`
runs afterwards, the flag's final value is still the command-line value,
whichever overlay data was applied. -/
theorem c1_cmdline_precedence :
    (∀ (env : String → String) (fsys : String → Option String)
       (dec : String → Except String Tree) (st : FState) (value0 : String) (oa : OptArg),
       List.Forall₂ setSeenKept st.sets (flagsSet env fsys dec st value0 oa).st.sets)
  ∧ (∀ (opts : List Opt) (name val : String) (i : Nat) (hi : i < opts.length),
       optMatches (opts.get ⟨i, hi⟩) name →
       ∃ hi2 : i < (cmdlineSet opts name val).length,
         ((cmdlineSet opts name val).get ⟨i, hi2⟩).value = val ∧
         ((cmdlineSet opts name val).get ⟨i, hi2⟩).seen = true)
  ∧ (∀ (env : String → String) (fsys : String → Option String)
       (dec : String → Except String Tree) (st : FState) (value0 : String) (oa : OptArg)
       (j : Nat) (hj : j < st.sets.length)
       (i : Nat) (hi : i < (st.sets.get ⟨j, hj⟩).2.length) (name val : String),
       optMatches ((st.sets.get ⟨j, hj⟩).2.get ⟨i, hi⟩) name →
       let out := flagsSet env fsys dec
         { st with sets := st.sets.set j ((st.sets.get ⟨j, hj⟩).1,
             cmdlineSet (st.sets.get ⟨j, hj⟩).2 name val) } value0 oa
       ∃ (hj2 : j < out.st.sets.length)
         (hi2 : i < (out.st.sets.get ⟨j, hj2⟩).2.length),
         ((out.st.sets.get ⟨j, hj2⟩).2.get ⟨i, hi2⟩).value = val ∧
         ((out.st.sets.get ⟨j, hj2⟩).2.get ⟨i, hi2⟩).seen = true) := by
  refine ⟨flagsSet_keeps_seen, cmdlineSet_get, ?_⟩
  intro env fsys dec st value0 oa j hj i hi name val hm
  intro out
  have hpres := flagsSet_keeps_seen env fsys dec
    { st with sets := st.sets.set j ((st.sets.get ⟨j, hj⟩).1,
        cmdlineSet (st.sets.get ⟨j, hj⟩).2 name val) } value0 oa
  rw [List.forall₂_iff_get] at hpres
  obtain ⟨hlen, hget⟩ := hpres
  simp only [List.length_set] at hlen
  have hj1 : j < (st.sets.set j ((st.sets.get ⟨j, hj⟩).1,
      cmdlineSet (st.sets.get ⟨j, hj⟩).2 name val)).length := by
    simpa using hj
  have hj2 : j < out.st.sets.length := by
    rw [← hlen]
    exact hj
  have hrel := hget j hj1 hj2
  have hjget : (st.sets.set j ((st.sets.get ⟨j, hj⟩).1,
      cmdlineSet (st.sets.get ⟨j, hj⟩).2 name val)).get ⟨j, hj1⟩ =
      ((st.sets.get ⟨j, hj⟩).1, cmdlineSet (st.sets.get ⟨j, hj⟩).2 name val) := by
    simp [List.get_eq_getElem, List.getElem_set_self]
  rw [hjget] at hrel
  obtain ⟨hname2, hopts⟩ := hrel
  rw [List.forall₂_iff_get] at hopts
  obtain ⟨hlen2, hget2⟩ := hopts
  obtain ⟨hic, hval, hseen⟩ := cmdlineSet_get (st.sets.get ⟨j, hj⟩).2 name val i hi hm
  have hi2 : i < (out.st.sets.get ⟨j, hj2⟩).2.length := by
    rw [← hlen2]
    exact hic
  have hkeep := hget2 i hic hi2 hseen
  refine ⟨hj2, hi2, ?_, ?_⟩
  · rw [hkeep]
    exact hval
  · rw [hkeep]
    exact hseen

end OptionsV

namespace OptionsV

/-- The file system of the precedence witness: a single overlay file. -/
def fsW : String → Option String :=
  fun p => if p = "my-flags" then some "name=bob" else none

/-- The initial state of the precedence witness: one root set with one
unseen flag `--name`/`-n` whose default value is `fred`. -/
def stW : FState :=
  ⟨[("", [⟨"name", "n", false, "fred"⟩])], true, "", true, []⟩

theorem c1_cmdline_precedence_witness :
    ∃ (hj2 : 0 < (flagsSet envEx fsW simpleDecoder
        { stW with sets := stW.sets.set 0 ((stW.sets.get ⟨0, by decide⟩).1,
            cmdlineSet (stW.sets.get ⟨0, by decide⟩).2 "name" "cli") }
        "my-flags" .noOpt).st.sets.length)
      (hi2 : 0 < ((flagsSet envEx fsW simpleDecoder
        { stW with sets := stW.sets.set 0 ((stW.sets.get ⟨0, by decide⟩).1,
            cmdlineSet (stW.sets.get ⟨0, by decide⟩).2 "name" "cli") }
        "my-flags" .noOpt).st.sets.get ⟨0, hj2⟩).2.length),
      (((flagsSet envEx fsW simpleDecoder
        { stW with sets := stW.sets.set 0 ((stW.sets.get ⟨0, by decide⟩).1,
            cmdlineSet (stW.sets.get ⟨0, by decide⟩).2 "name" "cli") }
        "my-flags" .noOpt).st.sets.get ⟨0, hj2⟩).2.get ⟨0, hi2⟩).value = "cli" ∧
      (((flagsSet envEx fsW simpleDecoder
        { stW with sets := stW.sets.set 0 ((stW.sets.get ⟨0, by decide⟩).1,
            cmdlineSet (stW.sets.get ⟨0, by decide⟩).2 "name" "cli") }
        "my-flags" .noOpt).st.sets.get ⟨0, hj2⟩).2.get ⟨0, hi2⟩).seen = true :=
  c1_cmdline_precedence.2.2 envEx fsW simpleDecoder stW "my-flags" .noOpt
    0 (by decide) 0 (by decide) "name" "cli" (by decide)

end OptionsV

namespace OptionsV

/-! ## Claim C10: the apply phase works on a duplicate -/

theorem isSome_getk_setk (t : Tree) (k k2 : String) (v : V)
    (h : (getk t k).isSome) : (getk (setk t k2 v) k).isSome := by
  by_cases he : k2 = k
  · subst he
    rw [getk_setk_self]
    rfl
  · rw [getk_setk_other t k2 k v (fun hh => he hh.symm)]
    exact h

theorem isSome_getk_mergemap (new old : Tree) (k : String)
    (h : (getk new k).isSome) : (getk (mergemap new old) k).isSome := by
  induction old generalizing new with
  | nil => simpa [mergemap] using h
  | cons p rest ih =>
    obtain ⟨k1, v1⟩ := p
    rw [mergemap]
    exact ih _ (isSome_getk_setk new k k1 (dupV v1) h)

theorem applyPhase_st_eq (st : FState) (p : String) (reads : List String) :
    (applyPhase st p reads).st =
      { st with sets := (applySets p st.sets (mergemap [] st.m)).1 } := by
  rcases has : (applySets p st.sets (mergemap [] st.m)).2.2 with _ | err
  · simp only [applyPhase, has]
  · simp only [applyPhase, has]

theorem expand_sentinel (env : String → String) :
    expand env rescanSentinel = rescanSentinel := by
  simp [expand, rescanSentinel, expandL]
  rfl

theorem flagsSet_m_keeps (env : String → String) (fsys : String → Option String)
    (dec : String → Except String Tree) (st : FState) (value0 : String) (oa : OptArg)
    (k : String) (h : (getk st.m k).isSome) :
    (getk (flagsSet env fsys dec st value0 oa).st.m k).isSome := by
  simp only [flagsSet]
  by_cases hv : expand env value0 = "" ∨ expand env value0 = "?"
  · simpa [hv] using h
  · simp only [hv, if_false, reduceIte]
    have hbody : (getk (flagsSetBody fsys dec st (expand env value0)).st.m k).isSome := by
      rw [flagsSetBody]
      by_cases hres : expand env value0 = rescanSentinel
      · simp only [hres, if_pos rfl, reduceIte, applyPhase_st_eq]
        exact h
      · simp only [hres, if_false, reduceIte]
        by_cases hq : strHead (expand env value0) = some '?'
        · simp only [hq, if_pos rfl, reduceIte]
          rcases hf : fsys (strTail (expand env value0)) with _ | data
          · exact h
          · simp only [flagsAfterRead]
            by_cases hd : trimS data = ""
            · simpa [hd] using h
            · simp only [hd, if_false, reduceIte]
              rcases hdec : dec (trimS data) with e2 | dm
              · exact h
              · simp only [applyPhase_st_eq]
                exact isSome_getk_mergemap st.m dm k h
        · simp only [hq, if_false, reduceIte]
          rcases hf : fsys (expand env value0) with _ | data
          · exact h
          · simp only [flagsAfterRead]
            by_cases hd : trimS data = ""
            · simpa [hd] using h
            · simp only [hd, if_false, reduceIte]
              rcases hdec : dec (trimS data) with e2 | dm
              · exact h
              · simp only [applyPhase_st_eq]
                exact isSome_getk_mergemap st.m dm k h
    rcases oa with _ | _ | _
    · by_cases hreg : st.registered
      · simpa [hreg] using hbody
      · simpa [hreg] using h
    · exact hbody
    · exact h

theorem rescanF_restores (env : String → String) (fsys : String → Option String)
    (dec : String → Except String Tree) (st : FState) (name : String)
    (nset : List Opt) : (rescanF env fsys dec st name nset).1.st = st := by
  obtain ⟨sets0, ig0, p0, reg0, m0⟩ := st
  rw [rescanF]
  simp only [flagsSet, expand_sentinel]
  have hv : ¬(rescanSentinel = "" ∨ rescanSentinel = "?") := by decide
  simp only [hv, if_false, reduceIte]
  cases reg0
  · simp
  · simp only [if_pos rfl, reduceIte]
    rw [flagsSetBody]
    simp only [if_pos rfl, reduceIte, applyPhase_st_eq]

end OptionsV

namespace OptionsV

/-- A heap value: a scalar, or a reference to another heap-allocated
map.  This models Go's reference semantics for nested
`map[string]interface{}` values, which the pure `Tree` embedding cannot
express. -/
inductive HV where
  | hstr (s : String)
  | href (a : Nat)
deriving Repr, DecidableEq

/-- The entries of one heap-allocated map. -/
abbrev HEntries := List (String × HV)

/-- A heap of maps: an association from addresses to entries, plus the
allocation counter (every live address is below `cnt`, fresh addresses
are allocated at `cnt`). -/
structure HS where
  heap : List (Nat × HEntries)
  cnt : Nat
deriving Repr

/-- Dereference an address. -/
def lookupH (h : List (Nat × HEntries)) (a : Nat) : Option HEntries :=
  match h with
  | [] => none
  | (a1, es) :: rest => if a1 = a then some es else lookupH rest a

mutual

/-- `mergemap(nil, m)` on the heap: copy the map at address `a` into a
freshly allocated map, recursively copying every referenced sub-map into
fresh addresses as well (`fuel` bounds the reference depth; the Go
recursion terminates because decoded trees are acyclic). -/
def dupMapF (fuel : Nat) (hs : HS) (a : Nat) : Option (Nat × HS) :=
  match fuel with
  | 0 => none
  | fuel + 1 =>
    match lookupH hs.heap a with
    | none => none
    | some entries =>
      match dupEntriesF fuel hs entries with
      | none => none
      | some (es, hs2) => some (hs2.cnt, ⟨(hs2.cnt, es) :: hs2.heap, hs2.cnt + 1⟩)
termination_by (fuel, 0)

/-- Copy a list of entries, deep-copying referenced sub-maps. -/
def dupEntriesF (fuel : Nat) (hs : HS) (l : HEntries) : Option (HEntries × HS) :=
  match l with
  | [] => some ([], hs)
  | (k, .hstr s) :: rest =>
    match dupEntriesF fuel hs rest with
    | none => none
    | some (es, hs2) => some ((k, .hstr s) :: es, hs2)
  | (k, .href b) :: rest =>
    match dupMapF fuel hs b with
    | none => none
    | some (b2, hs1) =>
      match dupEntriesF fuel hs1 rest with
      | none => none
      | some (es, hs2) => some ((k, .href b2) :: es, hs2)
termination_by (fuel, l.length + 1)

end

/-- Remove the binding of `k` from a list of entries (`delete(m, k)`). -/
def delEntries (es : HEntries) (k : String) : HEntries :=
  match es with
  | [] => []
  | (k1, v1) :: rest => if k1 = k then rest else (k1, v1) :: delEntries rest k

/-- Delete key `k` from the map at address `a` (a mutation of that one
map; every other address is untouched). -/
def delAtH (hs : HS) (a : Nat) (k : String) : HS :=
  ⟨hs.heap.map (fun p => if p.1 = a then (a, delEntries p.2 k) else p), hs.cnt⟩

/-- Run a sequence of key deletions, each at some address. -/
def applyDels (hs : HS) (ds : List (Nat × String)) : HS :=
  match ds with
  | [] => hs
  | d :: rest => applyDels (delAtH hs d.1 d.2) rest

theorem lookupH_delAtH (hs : HS) (a : Nat) (k : String) (b : Nat) (h : b ≠ a) :
    lookupH (delAtH hs a k).heap b = lookupH hs.heap b := by
  obtain ⟨heap, cnt⟩ := hs
  simp only [delAtH]
  induction heap with
  | nil => rfl
  | cons p rest ih =>
    obtain ⟨a1, es⟩ := p
    rw [List.map_cons]
    by_cases h1 : a1 = a
    · have hf : (if (a1, es).1 = a then (a, delEntries (a1, es).2 k) else (a1, es))
          = (a, delEntries es k) := by
        simp [h1]
      rw [hf]
      simp only [lookupH]
      rw [if_neg (by omega : ¬ a = b), if_neg (by omega : ¬ a1 = b), ih]
    · have hf : (if (a1, es).1 = a then (a, delEntries (a1, es).2 k) else (a1, es))
          = (a1, es) := by
        simp [h1]
      rw [hf]
      simp only [lookupH]
      by_cases h2 : a1 = b
      · rw [if_pos h2, if_pos h2]
      · rw [if_neg h2, if_neg h2, ih]

/-- The growth relation between heaps: the counter does not decrease and
every address below the old counter dereferences identically. -/
def heapP (hs hs2 : HS) : Prop :=
  hs.cnt ≤ hs2.cnt ∧ ∀ b, b < hs.cnt → lookupH hs2.heap b = lookupH hs.heap b

theorem heapP_refl (hs : HS) : heapP hs hs := ⟨le_rfl, fun _ _ => rfl⟩

theorem heapP_trans (h1 h2 h3 : HS) (a : heapP h1 h2) (b : heapP h2 h3) : heapP h1 h3 :=
  ⟨le_trans a.1 b.1, fun x hx => (b.2 x (lt_of_lt_of_le hx a.1)).trans (a.2 x hx)⟩

/-- What duplication guarantees at map level: the old part of the heap
is untouched, the new root is a fresh address, and every reference
stored in the new root's entries is fresh as well. -/
def dupMapOk (f : Nat) : Prop :=
  ∀ hs a a2 hs2, dupMapF f hs a = some (a2, hs2) →
    heapP hs hs2 ∧ hs.cnt ≤ a2 ∧ a2 < hs2.cnt ∧
    (∀ es, lookupH hs2.heap a2 = some es →
      ∀ p ∈ es, ∀ b, p.2 = HV.href b → hs.cnt ≤ b)

/-- What duplication guarantees at entry level. -/
def dupEntriesOk (f : Nat) : Prop :=
  ∀ hs l es hs2, dupEntriesF f hs l = some (es, hs2) →
    heapP hs hs2 ∧ ∀ p ∈ es, ∀ b, p.2 = HV.href b → hs.cnt ≤ b

theorem dupEntriesOk_of_dupMapOk (f : Nat) (hM : dupMapOk f) : dupEntriesOk f := by
  intro hs l
  induction l generalizing hs with
  | nil =>
    intro es hs2 h
    simp [dupEntriesF] at h
    obtain ⟨h1, h2⟩ := h
    subst h1
    subst h2
    exact ⟨heapP_refl hs, by simp⟩
  | cons p rest ih =>
    intro es hs2 h
    obtain ⟨k, hv⟩ := p
    rcases hv with s | b
    · rcases hr : dupEntriesF f hs rest with _ | ⟨es1, hs1⟩
      · rw [dupEntriesF, hr] at h
        simp at h
      · rw [dupEntriesF, hr] at h
        simp at h
        obtain ⟨h1, h2⟩ := h
        subst h1
        subst h2
        obtain ⟨hp, hrefs⟩ := ih hs es1 hs1 hr
        refine ⟨hp, ?_⟩
        intro p hp2 b hb
        rw [List.mem_cons] at hp2
        rcases hp2 with he | hmem
        · subst he
          simp at hb
        · exact hrefs p hmem b hb
    · rcases hm : dupMapF f hs b with _ | ⟨b2, hs1⟩
      · rw [dupEntriesF] at h
        simp only [hm] at h
        simp at h
      · rcases hr : dupEntriesF f hs1 rest with _ | ⟨es1, hs2x⟩
        · rw [dupEntriesF] at h
          simp only [hm] at h
          simp only [hr] at h
          simp at h
        · rw [dupEntriesF] at h
          simp only [hm] at h
          simp only [hr] at h
          simp at h
          obtain ⟨h1, h2⟩ := h
          subst h1
          subst h2
          obtain ⟨hpm, hb2, _, _⟩ := hM hs b b2 hs1 hm
          obtain ⟨hpe, hrefs⟩ := ih hs1 es1 hs2x hr
          refine ⟨heapP_trans hs hs1 hs2x hpm hpe, ?_⟩
          intro p hp2 b3 hb3
          rw [List.mem_cons] at hp2
          rcases hp2 with he | hmem
          · subst he
            simp at hb3
            subst hb3
            exact hb2
          · exact le_trans hpm.1 (hrefs p hmem b3 hb3)

theorem dupMapOk_succ (f : Nat) (hE : dupEntriesOk f) : dupMapOk (f + 1) := by
  intro hs a a2 hs2 h
  rcases hl : lookupH hs.heap a with _ | entries
  · rw [dupMapF] at h
    simp only [hl] at h
    simp at h
  · rcases hr : dupEntriesF f hs entries with _ | ⟨es, hs1⟩
    · rw [dupMapF] at h
      simp only [hl] at h
      simp only [hr] at h
      simp at h
    · rw [dupMapF] at h
      simp only [hl] at h
      simp only [hr] at h
      simp at h
      obtain ⟨h1, h2⟩ := h
      subst h1
      subst h2
      obtain ⟨hp, hrefs⟩ := hE hs entries es hs1 hr
      refine ⟨⟨le_trans hp.1 (Nat.le_succ _), ?_⟩, hp.1, by simp, ?_⟩
      · intro b hb
        have hbne : hs1.cnt ≠ b := by
          have := lt_of_lt_of_le hb hp.1
          omega
        rw [lookupH]
        simp only [hbne, if_false, reduceIte]
        exact hp.2 b hb
      · intro es2 hes2 p hp2 b hb
        rw [lookupH] at hes2
        simp at hes2
        subst hes2
        exact hrefs p hp2 b hb

theorem dup_ok (f : Nat) : dupMapOk f ∧ dupEntriesOk f := by
  induction f with
  | zero =>
    have hM : dupMapOk 0 := by
      intro hs a a2 hs2 h
      simp [dupMapF] at h
    exact ⟨hM, dupEntriesOk_of_dupMapOk 0 hM⟩
  | succ f ih =>
    have hM := dupMapOk_succ f ih.2
    exact ⟨hM, dupEntriesOk_of_dupMapOk (f + 1) hM⟩

theorem applyDels_low (ds : List (Nat × String)) (hs : HS) (c : Nat)
    (hds : ∀ d ∈ ds, c ≤ d.1) (b : Nat) (hb : b < c) :
    lookupH (applyDels hs ds).heap b = lookupH hs.heap b := by
  induction ds generalizing hs with
  | nil => simp [applyDels]
  | cons d rest ih =>
    rw [applyDels]
    rw [ih (delAtH hs d.1 d.2) (fun d2 hd2 => hds d2 (by simp [hd2]))]
    exact lookupH_delAtH hs d.1 d.2 b (by have := hds d (by simp); omega)

end OptionsV

namespace OptionsV

/-- **Claim C10.** The apply phase of `Flags.Set` and `Flags.Rescan`
operates on a deep duplicate of the accumulated tree (`mergemap(nil,
f.m)`): (i) every key of the accumulated map is still present after any
call to `Set`; (ii) `Rescan` restores the whole `Flags` state — in
particular its `Sets` field — to its prior value; (iii) in the heap
model of Go's reference semantics, duplication allocates the copy at a
fresh address, every sub-map reference stored in the copy is fresh as
well, and any sequence of key deletions performed at fresh addresses
(as the apply phase's `delete(m, k)` calls are) leaves the entries of
every pre-existing address — the persistent accumulated tree —
unchanged. -/
theorem c10_apply_on_duplicate
    (env : String → String) (fsys : String → Option String)
    (dec : String → Except String Tree) (st : FState) (value0 : String)
    (oa : OptArg) (k : String) (name : String) (nset : List Opt)
    (f a a2 : Nat) (hs hs2 : HS) (ds : List (Nat × String))
    (hk : (getk st.m k).isSome)
    (hdup : dupMapF f hs a = some (a2, hs2))
    (hds : ∀ d ∈ ds, hs.cnt ≤ d.1) :
    (getk (flagsSet env fsys dec st value0 oa).st.m k).isSome ∧
    (rescanF env fsys dec st name nset).1.st = st ∧
    hs.cnt ≤ a2 ∧
    (∀ b, b < hs.cnt → lookupH (applyDels hs2 ds).heap b = lookupH hs.heap b) ∧
    (∀ es, lookupH hs2.heap a2 = some es →
      ∀ p ∈ es, ∀ b2, p.2 = HV.href b2 → hs.cnt ≤ b2) := by
  obtain ⟨hp, ha2, _, hrefs⟩ := (dup_ok f).1 hs a a2 hs2 hdup
  refine ⟨flagsSet_m_keeps env fsys dec st value0 oa k hk,
    rescanF_restores env fsys dec st name nset, ha2, ?_, hrefs⟩
  intro b hb
  rw [applyDels_low ds hs2 hs.cnt hds b hb]
  exact hp.2 b hb

/-- Concrete state for the C10 witness: one accumulated key. -/
def stC10 : FState := ⟨[], false, "", true, [("a", V.str "x")]⟩

/-- Concrete heap for the C10 witness: the accumulated tree at address 0
with a nested sub-map at address 1. -/
def hsC10 : HS :=
  ⟨[(0, [("a", HV.hstr "x"), ("s", HV.href 1)]), (1, [("b", HV.hstr "y")])], 2⟩

/-- The result of duplicating address 0 of `hsC10`: fresh copies at
addresses 2 and 3, originals untouched. -/
def hsC10d : HS :=
  ⟨[(3, [("a", HV.hstr "x"), ("s", HV.href 2)]), (2, [("b", HV.hstr "y")]),
    (0, [("a", HV.hstr "x"), ("s", HV.href 1)]), (1, [("b", HV.hstr "y")])], 4⟩

/-- Deletions the apply phase would perform on the duplicate: consume
key `a` at the copied root and key `b` in the copied sub-map. -/
def dsC10 : List (Nat × String) := [(3, "a"), (2, "b")]

theorem c10_apply_on_duplicate_witness :
    ((getk stC10.m "a").isSome ∧
     dupMapF 3 hsC10 0 = some (3, hsC10d) ∧
     (∀ d ∈ dsC10, hsC10.cnt ≤ d.1)) ∧
    ((getk (flagsSet (fun _ => "") (fun _ => none) (fun _ => Except.error "")
        stC10 "" OptArg.noOpt).st.m "a").isSome ∧
     (rescanF (fun _ => "") (fun _ => none) (fun _ => Except.error "")
        stC10 "" []).1.st = stC10 ∧
     hsC10.cnt ≤ 3 ∧
     (∀ b, b < hsC10.cnt → lookupH (applyDels hsC10d dsC10).heap b = lookupH hsC10.heap b) ∧
     (∀ es, lookupH hsC10d.heap 3 = some es →
       ∀ p ∈ es, ∀ b2, p.2 = HV.href b2 → hsC10.cnt ≤ b2)) :=
  ⟨⟨by decide,
    by simp [dupMapF, dupEntriesF, hsC10, hsC10d, lookupH],
    by decide⟩,
   c10_apply_on_duplicate (fun _ => "") (fun _ => none) (fun _ => Except.error "")
     stC10 "" OptArg.noOpt "a" "" [] 3 0 3 hsC10 hsC10d dsC10
     (by decide)
     (by simp [dupMapF, dupEntriesF, hsC10, hsC10d, lookupH])
     (by decide)⟩

end OptionsV
